import Mathlib

/-!
Chess checkmate evaluator: shallow embedding of `src/main.cpp`.

Conventions of the embedding.

* `int` coordinates are `Int`.  Every addition in the program adds an offset of
  absolute value at most 7 to a coordinate, and signed overflow is undefined in
  C++, so no wrap-around is modelled.
* A `Piece*` is an `Option Piece`: `none` is `nullptr`, `some k` points to an
  object of the concrete class `k`.  Object identity and `delete` are not
  modelled.
* `std::vector::operator[]` outside the vector and a call through `nullptr` are
  undefined behaviour.  Every operation that may reach one returns an `Option`,
  and `none` stands for that undefined behaviour.
* A member function that changes the object returns the new object next to its
  C++ return value.
-/

namespace Chess

/-! ## Positions -/

/-- The constant `BOARD_SIZE`. -/
def BOARD_SIZE : Int := 8

/-- The enumeration `PieceType`. -/
inductive PieceType where
  | EMPTY | KING | QUEEN | ROOK | BISHOP | KNIGHT
  deriving DecidableEq, Repr

/-- The struct `Position`. -/
@[ext]
structure Position where
  x : Int
  y : Int
  deriving DecidableEq, Repr

/-- The method `Position::isValid`. -/
def Position.isValid (p : Position) : Bool :=
  decide (p.x ≥ 0) && decide (p.x < BOARD_SIZE) && decide (p.y ≥ 0) && decide (p.y < BOARD_SIZE)

/-- The operator `Position::operator==`. -/
def Position.eq (p other : Position) : Bool :=
  decide (p.x = other.x) && decide (p.y = other.y)

/-! ## Move generation -/

/-- The algorithm `std::remove_if` followed by `erase`: the elements for which
`pred` is false are kept, in their order. -/
def remove_if {α : Type} (pred : α → Bool) (v : List α) : List α :=
  v.filter (fun a => !pred a)

/-- The values taken by the counter of `for (int i = 1; i < BOARD_SIZE; ++i)`,
in order. -/
def loopIndices : List Int :=
  (List.range' 1 (BOARD_SIZE.toNat - 1)).map Int.ofNat

/-- The method `King::getMoves`. -/
def King.getMoves (pos : Position) : List Position :=
  let moves : List Position :=
    [ ⟨pos.x - 1, pos.y - 1⟩, ⟨pos.x - 1, pos.y⟩, ⟨pos.x - 1, pos.y + 1⟩,
      ⟨pos.x, pos.y - 1⟩,                          ⟨pos.x, pos.y + 1⟩,
      ⟨pos.x + 1, pos.y - 1⟩, ⟨pos.x + 1, pos.y⟩, ⟨pos.x + 1, pos.y + 1⟩ ]
  remove_if (fun pos => !pos.isValid) moves

/-- The method `Queen::getMoves`: each pass of the loop pushes eight positions. -/
def Queen.getMoves (pos : Position) : List Position :=
  let moves : List Position :=
    loopIndices.flatMap (fun i =>
      [ ⟨pos.x + i, pos.y⟩, ⟨pos.x - i, pos.y⟩, ⟨pos.x, pos.y + i⟩, ⟨pos.x, pos.y - i⟩,
        ⟨pos.x + i, pos.y + i⟩, ⟨pos.x - i, pos.y - i⟩,
        ⟨pos.x + i, pos.y - i⟩, ⟨pos.x - i, pos.y + i⟩ ])
  remove_if (fun pos => !pos.isValid) moves

/-- The method `Rook::getMoves`: each pass of the loop pushes four positions. -/
def Rook.getMoves (pos : Position) : List Position :=
  let moves : List Position :=
    loopIndices.flatMap (fun i =>
      [ ⟨pos.x + i, pos.y⟩, ⟨pos.x - i, pos.y⟩, ⟨pos.x, pos.y + i⟩, ⟨pos.x, pos.y - i⟩ ])
  remove_if (fun pos => !pos.isValid) moves

/-- The method `Bishop::getMoves`: each pass of the loop pushes four positions. -/
def Bishop.getMoves (pos : Position) : List Position :=
  let moves : List Position :=
    loopIndices.flatMap (fun i =>
      [ ⟨pos.x + i, pos.y + i⟩, ⟨pos.x - i, pos.y - i⟩,
        ⟨pos.x + i, pos.y - i⟩, ⟨pos.x - i, pos.y + i⟩ ])
  remove_if (fun pos => !pos.isValid) moves

/-- The method `Knight::getMoves`. -/
def Knight.getMoves (pos : Position) : List Position :=
  let moves : List Position :=
    [ ⟨pos.x + 2, pos.y + 1⟩, ⟨pos.x + 2, pos.y - 1⟩,
      ⟨pos.x - 2, pos.y + 1⟩, ⟨pos.x - 2, pos.y - 1⟩,
      ⟨pos.x + 1, pos.y + 2⟩, ⟨pos.x + 1, pos.y - 2⟩,
      ⟨pos.x - 1, pos.y + 2⟩, ⟨pos.x - 1, pos.y - 2⟩ ]
  remove_if (fun pos => !pos.isValid) moves

/-- The concrete classes derived from the abstract class `Piece`. -/
inductive Piece where
  | King | Queen | Rook | Bishop | Knight
  deriving DecidableEq, Repr

/-- The virtual method `Piece::getType`. -/
def Piece.getType : Piece → PieceType
  | .King => .KING
  | .Queen => .QUEEN
  | .Rook => .ROOK
  | .Bishop => .BISHOP
  | .Knight => .KNIGHT

/-- The virtual method `Piece::getSymbol`. -/
def Piece.getSymbol : Piece → Char
  | .King => 'K'
  | .Queen => 'Q'
  | .Rook => 'R'
  | .Bishop => 'B'
  | .Knight => 'N'

/-- The virtual method `Piece::getMoves`, dispatched on the class of the object. -/
def Piece.getMoves : Piece → Position → List Position
  | .King => King.getMoves
  | .Queen => Queen.getMoves
  | .Rook => Rook.getMoves
  | .Bishop => Bishop.getMoves
  | .Knight => Knight.getMoves

/-! ## The board -/

/-- The expression `v[i]` for a `std::vector` and an `int` index: the element,
or `none` when the index is outside the vector. -/
def index {α : Type} (v : List α) (i : Int) : Option α :=
  if 0 ≤ i then v[i.toNat]? else none

/-- The class `Board`: its only member is the grid `board`, indexed
`board[x][y]`, a null pointer marking an empty cell. -/
structure Board where
  board : List (List (Option Piece))
  deriving DecidableEq, Repr

/-- The constructor `Board::Board`: `BOARD_SIZE` rows of `BOARD_SIZE` null
pointers. -/
def Board.new : Board :=
  ⟨List.replicate BOARD_SIZE.toNat (List.replicate BOARD_SIZE.toNat none)⟩

/-- The method `Board::getPiece`: the pointer stored in `board[pos.x][pos.y]`. -/
def Board.getPiece (b : Board) (pos : Position) : Option (Option Piece) := do
  let row ← index b.board pos.x
  index row pos.y

/-- The method `Board::isOccupied`. -/
def Board.isOccupied (b : Board) (pos : Position) : Option Bool := do
  let row ← index b.board pos.x
  let cell ← index row pos.y
  pure (cell != none)

/-- The assignment `board[pos.x][pos.y] = piece`. -/
def Board.assign (b : Board) (pos : Position) (piece : Option Piece) : Option Board := do
  let row ← index b.board pos.x
  let _ ← index row pos.y
  pure ⟨b.board.set pos.x.toNat (row.set pos.y.toNat piece)⟩

/-- The method `Board::placePiece`: the returned flag and the board afterwards. -/
def Board.placePiece (b : Board) (pos : Position) (piece : Option Piece) :
    Option (Bool × Board) := do
  if (← b.isOccupied pos) then
    pure (false, b)
  else
    let b' ← b.assign pos piece
    pure (true, b')

/-- The method `Board::removePiece`. -/
def Board.removePiece (b : Board) (pos : Position) : Option Board :=
  b.assign pos none

/-! ## The game -/

/-- The class `Game`. -/
structure Game where
  board : Board
  blackKingPos : Position
  whitePieces : List Position
  deriving DecidableEq, Repr

/-- The constructor `Game::Game`. -/
def Game.new : Game :=
  { board := Board.new, blackKingPos := ⟨-1, -1⟩, whitePieces := [] }

/-- The method `Game::addWhitePiece`: the returned flag and the game afterwards. -/
def Game.addWhitePiece (g : Game) (pos : Position) (piece : Option Piece) :
    Option (Bool × Game) := do
  let (placed, board) ← g.board.placePiece pos piece
  if placed then
    pure (true, { g with board := board, whitePieces := g.whitePieces ++ [pos] })
  else
    pure (false, { g with board := board })

/-- The method `Game::setBlackKing`: the returned flag and the game afterwards. -/
def Game.setBlackKing (g : Game) (pos : Position) : Option (Bool × Game) := do
  let (placed, board) ← g.board.placePiece pos (some Piece.King)
  if placed then
    pure (true, { g with board := board, blackKingPos := pos })
  else
    pure (false, { g with board := board })

/-- The inner loop of `isCheck` and `isThreatened`: whether some element of
`moves` equals `pos`. -/
def scanMoves (pos : Position) : List Position → Bool
  | [] => false
  | move :: rest => if move.eq pos then true else scanMoves pos rest

/-- The outer loop of `isCheck` and `isThreatened` over the remaining part of
`whitePieces`; it returns at the first match. -/
def scanPieces (board : Board) (pos : Position) : List Position → Option Bool
  | [] => some false
  | piecePos :: rest => do
    let piece ← (← board.getPiece piecePos)
    let moves := piece.getMoves piecePos
    if scanMoves pos moves then pure true else scanPieces board pos rest

/-- The method `Game::isCheck`. -/
def Game.isCheck (g : Game) (kingPos : Position) : Option Bool :=
  scanPieces g.board kingPos g.whitePieces

/-- The method `Game::isThreatened`. -/
def Game.isThreatened (g : Game) (pos : Position) : Option Bool :=
  scanPieces g.board pos g.whitePieces

/-- The loop of `hasLegalMoves` over the remaining part of `kingMoves`. -/
def Game.scanKingMoves (g : Game) : List Position → Option Bool
  | [] => some false
  | move :: rest => do
    let free ←
      if !(← g.board.isOccupied move) then pure true
      else if (← g.board.isOccupied move) then do
        let piece ← (← g.board.getPiece move)
        pure (piece.getType != PieceType.KING)
      else pure false
    if free then
      if !(← g.isThreatened move) then pure true else g.scanKingMoves rest
    else g.scanKingMoves rest

/-- The method `Game::hasLegalMoves`. -/
def Game.hasLegalMoves (g : Game) (kingPos : Position) : Option Bool := do
  let piece ← (← g.board.getPiece kingPos)
  let kingMoves := piece.getMoves kingPos
  g.scanKingMoves kingMoves

/-- The method `Game::isCheckmate`; `&&` evaluates its right operand only when
the left one is true. -/
def Game.isCheckmate (g : Game) : Option Bool := do
  if (← g.isCheck g.blackKingPos) then
    pure (!(← g.hasLegalMoves g.blackKingPos))
  else
    pure false

/-! ## Call sequences -/

/-- A call of one of the two mutating methods of `Game`, `addWhitePiece` with a
freshly allocated piece of the given class. -/
inductive Call where
  | setBlackKing (pos : Position)
  | addWhitePiece (pos : Position) (piece : Piece)
  deriving DecidableEq, Repr

/-- The position argument of a call. -/
def Call.pos : Call → Position
  | .setBlackKing pos => pos
  | .addWhitePiece pos _ => pos

/-- Performing one call: the returned flag and the game afterwards. -/
def Game.call (g : Game) : Call → Option (Bool × Game)
  | .setBlackKing pos => g.setBlackKing pos
  | .addWhitePiece pos piece => g.addWhitePiece pos (some piece)

/-- Whether the call is a `setBlackKing` that returned `placed`. -/
def Call.kingPlaced (c : Call) (placed : Bool) : Bool :=
  match c with
  | .setBlackKing _ => placed
  | .addWhitePiece _ _ => false

/-- Performing the calls in order, starting from `g`.  The flag records whether
a `setBlackKing` has returned true, before (`kingSet`) or during the calls. -/
def Game.run (g : Game) (kingSet : Bool) : List Call → Option (Game × Bool)
  | [] => some (g, kingSet)
  | c :: cs => do
    let (placed, g') ← g.call c
    Game.run g' (kingSet || c.kingPlaced placed) cs

/-- The game `g` is reached from a fresh `Game` by calls whose positions are in
bounds; `kingSet` tells whether some `setBlackKing` among them succeeded. -/
def Game.ReachedBy (calls : List Call) (g : Game) (kingSet : Bool) : Prop :=
  (∀ c ∈ calls, c.pos.isValid = true) ∧ Game.new.run false calls = some (g, kingSet)

/-- The game `g` is reached from a fresh `Game` by calls of `setBlackKing` and
`addWhitePiece` with in-bounds positions and non-null pieces. -/
def Game.Reachable (g : Game) : Prop :=
  ∃ calls kingSet, Game.ReachedBy calls g kingSet

/-- A reachable game in which `setBlackKing` has succeeded at least once. -/
def Game.ReachableKingSet (g : Game) : Prop :=
  ∃ calls, Game.ReachedBy calls g true

/-- The calls of `main`. -/
def referenceCalls : List Call :=
  [ .setBlackKing ⟨1, 1⟩,
    .addWhitePiece ⟨1, 2⟩ .Queen,
    .addWhitePiece ⟨1, 0⟩ .Rook,
    .addWhitePiece ⟨5, 5⟩ .Bishop,
    .addWhitePiece ⟨4, 4⟩ .Knight ]

/-- The calls of `main` without the one that adds the rook. -/
def referenceCallsNoRook : List Call :=
  [ .setBlackKing ⟨1, 1⟩,
    .addWhitePiece ⟨1, 2⟩ .Queen,
    .addWhitePiece ⟨5, 5⟩ .Bishop,
    .addWhitePiece ⟨4, 4⟩ .Knight ]

/-- The calls of `main` in another order. -/
def reorderedReferenceCalls : List Call :=
  [ .addWhitePiece ⟨4, 4⟩ .Knight,
    .addWhitePiece ⟨5, 5⟩ .Bishop,
    .setBlackKing ⟨1, 1⟩,
    .addWhitePiece ⟨1, 0⟩ .Rook,
    .addWhitePiece ⟨1, 2⟩ .Queen ]

/-- The flags returned by the calls, performed in order starting from `g`. -/
def Game.flags (g : Game) : List Call → Option (List Bool)
  | [] => some []
  | c :: cs => do
    let (placed, g') ← g.call c
    let rest ← g'.flags cs
    pure (placed :: rest)

/-- The game after the calls, performed in order on a fresh `Game`. -/
def gameAfter (calls : List Call) : Game :=
  match Game.new.run false calls with
  | some (g, _) => g
  | none => Game.new

/-- The position set up by `main`. -/
def referenceGame : Game := gameAfter referenceCalls

/-- The position set up by `main`, the rook left out. -/
def noRookGame : Game := gameAfter referenceCallsNoRook

/-- A lone white rook in the corner. -/
def loneRookGame : Game := gameAfter [.addWhitePiece ⟨0, 0⟩ .Rook]

/-- Whether the call is an `addWhitePiece`. -/
def Call.isAddWhitePiece : Call → Bool
  | .setBlackKing _ => false
  | .addWhitePiece _ _ => true

/-- The class of the piece the call allocates: `new King()` in `setBlackKing`,
the argument of `addWhitePiece`. -/
def Call.piece : Call → Piece
  | .setBlackKing _ => Piece.King
  | .addWhitePiece _ piece => piece

/-! ## Predicates used in the proofs -/

/-- The predicate on games stated in words for the placement invariant: every
location in the white-piece list is in bounds and its cell is occupied; the list
contains no location twice; the recorded black-king location is the sentinel
`(-1,-1)` or an in-bounds cell occupied by a King piece that is not in the
white-piece list. -/
def Game.PlacementInvariant (g : Game) : Prop :=
  (∀ loc ∈ g.whitePieces, loc.isValid = true ∧ g.board.isOccupied loc = some true) ∧
  g.whitePieces.Nodup ∧
  (g.blackKingPos = ⟨-1, -1⟩ ∨
    (g.blackKingPos.isValid = true ∧
      (∃ piece, g.board.getPiece g.blackKingPos = some (some piece) ∧
        piece.getType = PieceType.KING) ∧
      g.blackKingPos ∉ g.whitePieces))


/-- The grid has `BOARD_SIZE` rows of `BOARD_SIZE` cells, as the constructor
made it. -/
def Board.WF (b : Board) : Prop :=
  b.board.length = 8 ∧ ∀ row ∈ b.board, row.length = 8

/-- What every game reached by in-bounds calls satisfies; `kingSet` tells whether
a `setBlackKing` has succeeded. -/
structure Game.Inv (g : Game) (kingSet : Bool) : Prop where
  wf : g.board.WF
  white : ∀ loc ∈ g.whitePieces, ∃ piece, g.board.getPiece loc = some (some piece)
  king : kingSet = true → g.board.getPiece g.blackKingPos = some (some Piece.King)
  unset : kingSet = false → g.blackKingPos = ⟨-1, -1⟩
  nodup : g.whitePieces.Nodup
  kingNotWhite : g.blackKingPos ∉ g.whitePieces

/-! ## Basic facts -/

theorem Position.isValid_iff (p : Position) :
    p.isValid = true ↔ 0 ≤ p.x ∧ p.x < 8 ∧ 0 ≤ p.y ∧ p.y < 8 := by
  simp [Position.isValid, BOARD_SIZE, and_assoc]

theorem Position.eq_iff (p q : Position) : p.eq q = true ↔ p = q := by
  simp [Position.eq, Position.ext_iff]

theorem mem_remove_if {α : Type} (pred : α → Bool) (v : List α) (a : α) :
    a ∈ remove_if pred v ↔ a ∈ v ∧ pred a = false := by
  simp [remove_if, List.mem_filter]

theorem loopIndices_eq : loopIndices = [1, 2, 3, 4, 5, 6, 7] := by decide

theorem mem_loopIndices (i : Int) : i ∈ loopIndices ↔ 1 ≤ i ∧ i < 8 := by
  rw [loopIndices_eq]
  simp only [List.mem_cons, List.mem_singleton, List.not_mem_nil, or_false]
  omega

theorem mem_getMoves_isValid (k : Piece) (o p : Position) (h : p ∈ k.getMoves o) :
    p.isValid = true := by
  cases k <;>
    simp only [Piece.getMoves, King.getMoves, Queen.getMoves, Rook.getMoves, Bishop.getMoves,
      Knight.getMoves, mem_remove_if] at h <;>
    simpa using h.2

theorem mem_King_getMoves (o p : Position) :
    p ∈ King.getMoves o ↔
      p.isValid = true ∧ max |p.x - o.x| |p.y - o.y| = 1 := by
  obtain ⟨ox, oy⟩ := o
  obtain ⟨px, py⟩ := p
  simp only [King.getMoves, mem_remove_if, List.mem_cons, List.mem_singleton, List.not_mem_nil,
    or_false, Position.mk.injEq, Bool.not_eq_false', Bool.not_eq_true', Bool.not_not,
    Position.isValid_iff]
  rcases abs_cases (px - ox) with h1 | h1 <;> rcases abs_cases (py - oy) with h2 | h2 <;>
    rcases max_cases |px - ox| |py - oy| with h3 | h3 <;> rw [h3.1] <;> omega

theorem King_getMoves_nodup (o : Position) : (King.getMoves o).Nodup := by
  unfold King.getMoves remove_if
  apply List.Nodup.filter
  simp only [List.nodup_cons, List.mem_cons, List.mem_singleton, List.not_mem_nil,
    Position.mk.injEq, List.nodup_nil, or_false, not_or, and_true]
  simp only [true_and, not_false_eq_true, and_true]
  omega

theorem mem_Knight_getMoves (o p : Position) :
    p ∈ Knight.getMoves o ↔
      p.isValid = true ∧
        ((|p.x - o.x| = 1 ∧ |p.y - o.y| = 2) ∨ (|p.x - o.x| = 2 ∧ |p.y - o.y| = 1)) := by
  obtain ⟨ox, oy⟩ := o
  obtain ⟨px, py⟩ := p
  simp only [Knight.getMoves, mem_remove_if, List.mem_cons, List.mem_singleton, List.not_mem_nil,
    or_false, Position.mk.injEq, Bool.not_eq_false', Bool.not_eq_true', Bool.not_not,
    Position.isValid_iff]
  rcases abs_cases (px - ox) with h1 | h1 <;> rcases abs_cases (py - oy) with h2 | h2 <;>
    rw [h1.1, h2.1] <;> omega

theorem Knight_getMoves_nodup (o : Position) : (Knight.getMoves o).Nodup := by
  unfold Knight.getMoves remove_if
  apply List.Nodup.filter
  simp only [List.nodup_cons, List.mem_cons, List.mem_singleton, List.not_mem_nil,
    Position.mk.injEq, List.nodup_nil, or_false, not_or, and_true]
  simp only [true_and, not_false_eq_true, and_true]
  omega

/-- Membership in the list built by a loop pushing the positions `f i`. -/
theorem mem_slide (f : Int → List Position) (p : Position) :
    p ∈ remove_if (fun pos => !pos.isValid) (loopIndices.flatMap f) ↔
      p.isValid = true ∧ ∃ i, 1 ≤ i ∧ i < 8 ∧ p ∈ f i := by
  simp only [mem_remove_if, List.mem_flatMap, mem_loopIndices, Bool.not_eq_false',
    Bool.not_eq_true', Bool.not_not]
  constructor
  · rintro ⟨⟨i, ⟨h1, h2⟩, h3⟩, hv⟩
    exact ⟨hv, i, h1, h2, h3⟩
  · rintro ⟨hv, i, h1, h2, h3⟩
    exact ⟨⟨i, ⟨h1, h2⟩, h3⟩, hv⟩

theorem mem_Rook_getMoves (o p : Position) (ho : o.isValid = true) :
    p ∈ Rook.getMoves o ↔
      p.isValid = true ∧ p ≠ o ∧ (p.x = o.x ∨ p.y = o.y) := by
  obtain ⟨ox, oy⟩ := o
  obtain ⟨px, py⟩ := p
  simp only [Position.isValid_iff] at ho
  simp only [Rook.getMoves, mem_slide, List.mem_cons, List.mem_singleton, List.not_mem_nil,
    or_false, Position.mk.injEq, Position.isValid_iff, ne_eq]
  constructor
  · rintro ⟨hv, i, h1, h2, h3⟩
    refine ⟨hv, ?_, ?_⟩ <;> omega
  · rintro ⟨hv, hne, h3⟩
    refine ⟨hv, |px - ox| + |py - oy|, ?_⟩
    rcases abs_cases (px - ox) with h1 | h1 <;> rcases abs_cases (py - oy) with h2 | h2 <;>
      rw [h1.1, h2.1] <;> omega

theorem mem_Bishop_getMoves (o p : Position) (ho : o.isValid = true) :
    p ∈ Bishop.getMoves o ↔
      p.isValid = true ∧ p ≠ o ∧ |p.x - o.x| = |p.y - o.y| := by
  obtain ⟨ox, oy⟩ := o
  obtain ⟨px, py⟩ := p
  simp only [Position.isValid_iff] at ho
  simp only [Bishop.getMoves, mem_slide, List.mem_cons, List.mem_singleton, List.not_mem_nil,
    or_false, Position.mk.injEq, Position.isValid_iff, ne_eq]
  rcases abs_cases (px - ox) with h1 | h1 <;> rcases abs_cases (py - oy) with h2 | h2 <;>
    rw [h1.1, h2.1]
  all_goals
    constructor
    · rintro ⟨hv, i, h1, h2, h3⟩
      refine ⟨hv, ?_, ?_⟩ <;> omega
    · rintro ⟨hv, hne, h3⟩
      refine ⟨hv, |px - ox|, ?_⟩
      rw [h1.1]
      omega

theorem Rook_getMoves_nodup_length (o : Position) (ho : o.isValid = true) :
    (Rook.getMoves o).Nodup ∧ (Rook.getMoves o).length = 14 := by
  obtain ⟨ox, oy⟩ := o
  simp only [Position.isValid_iff] at ho
  obtain ⟨h1, h2, h3, h4⟩ := ho
  interval_cases ox <;> interval_cases oy <;> decide

theorem Bishop_getMoves_nodup (o : Position) (ho : o.isValid = true) :
    (Bishop.getMoves o).Nodup := by
  obtain ⟨ox, oy⟩ := o
  simp only [Position.isValid_iff] at ho
  obtain ⟨h1, h2, h3, h4⟩ := ho
  interval_cases ox <;> interval_cases oy <;> decide

/-! ## The board: indexing and assignment -/

theorem index_eq_some {α : Type} (v : List α) (i : Int) (a : α) (h : index v i = some a) :
    0 ≤ i ∧ i.toNat < v.length ∧ a ∈ v := by
  unfold index at h
  split at h
  · rename_i h0
    obtain ⟨hlt, rfl⟩ := List.getElem?_eq_some.1 h
    exact ⟨h0, hlt, List.getElem_mem _⟩
  · cases h

theorem index_of_lt {α : Type} (v : List α) (i : Int) (h0 : 0 ≤ i) (h1 : i < v.length) :
    ∃ a, index v i = some a := by
  have hlt : i.toNat < v.length := by omega
  exact ⟨v[i.toNat], by simp [index, h0, List.getElem?_eq_getElem hlt]⟩

theorem index_set {α : Type} (v : List α) (i j : Int) (a : α) (h0 : 0 ≤ i)
    (h1 : i.toNat < v.length) :
    index (v.set i.toNat a) j = if j = i then some a else index v j := by
  unfold index
  by_cases hj : 0 ≤ j
  · simp only [hj, if_true]
    by_cases hji : j = i
    · subst hji
      simp [h1]
    · have : i.toNat ≠ j.toNat := by omega
      simp [hji, List.getElem?_set_ne this]
  · have : j ≠ i := by omega
    simp [hj, this]

theorem Board.isOccupied_eq (b : Board) (pos : Position) :
    b.isOccupied pos = (b.getPiece pos).map (fun cell => cell != none) := by
  unfold Board.isOccupied Board.getPiece
  cases index b.board pos.x with
  | none => rfl
  | some row =>
    simp only [Option.bind_eq_bind, Option.some_bind]
    cases index row pos.y <;> rfl

theorem Board.getPiece_of_valid (b : Board) (hb : b.WF) (pos : Position)
    (hp : pos.isValid = true) : ∃ cell, b.getPiece pos = some cell := by
  rw [Position.isValid_iff] at hp
  obtain ⟨row, hrow⟩ := index_of_lt b.board pos.x hp.1 (by rw [hb.1]; omega)
  have hlen := hb.2 row (index_eq_some _ _ _ hrow).2.2
  obtain ⟨cell, hcell⟩ := index_of_lt row pos.y hp.2.2.1 (by rw [hlen]; omega)
  exact ⟨cell, by simp [Board.getPiece, hrow, hcell]⟩

theorem Board.getPiece_eq_some (b : Board) (hb : b.WF) (pos : Position) (cell : Option Piece)
    (h : b.getPiece pos = some cell) : pos.isValid = true := by
  unfold Board.getPiece at h
  cases hrow : index b.board pos.x with
  | none => simp [hrow] at h
  | some row =>
    simp only [hrow, Option.bind_eq_bind, Option.some_bind] at h
    have h1 := index_eq_some _ _ _ hrow
    have h2 := index_eq_some _ _ _ h
    have hlen := hb.2 row h1.2.2
    rw [Position.isValid_iff]
    have := hb.1
    omega

theorem Board.assign_of_valid (b : Board) (hb : b.WF) (pos : Position)
    (hp : pos.isValid = true) (piece : Option Piece) :
    ∃ b', b.assign pos piece = some b' ∧ b'.WF ∧
      ∀ q, b'.getPiece q = if q = pos then some piece else b.getPiece q := by
  rw [Position.isValid_iff] at hp
  obtain ⟨row, hrow⟩ := index_of_lt b.board pos.x hp.1 (by rw [hb.1]; omega)
  have hr := index_eq_some _ _ _ hrow
  have hlen := hb.2 row hr.2.2
  obtain ⟨cell, hcell⟩ := index_of_lt row pos.y hp.2.2.1 (by rw [hlen]; omega)
  refine ⟨⟨b.board.set pos.x.toNat (row.set pos.y.toNat piece)⟩, ?_, ?_, ?_⟩
  · simp [Board.assign, hrow, hcell]
  · refine ⟨by simpa using hb.1, ?_⟩
    intro r hmem
    rcases List.mem_or_eq_of_mem_set hmem with h | h
    · exact hb.2 r h
    · rw [h, List.length_set]; exact hlen
  · intro q
    simp only [Board.getPiece, Option.bind_eq_bind]
    rw [index_set _ _ _ _ hp.1 hr.2.1]
    by_cases hx : q.x = pos.x
    · simp only [hx, if_true, Option.some_bind, hrow]
      rw [index_set _ _ _ _ hp.2.2.1 (by rw [hlen]; omega)]
      by_cases hy : q.y = pos.y
      · have : q = pos := Position.ext hx hy
        simp [hy, this]
      · have : q ≠ pos := fun h => hy (by rw [h])
        simp [hy, this]
    · have : q ≠ pos := fun h => hx (by rw [h])
      simp [hx, this]

theorem Board.new_WF : Board.new.WF := by
  constructor
  · decide
  · intro row h
    have := List.eq_of_mem_replicate h
    rw [this]
    decide

theorem Board.new_getPiece (pos : Position) (cell : Option Piece)
    (h : Board.new.getPiece pos = some cell) : cell = none := by
  unfold Board.getPiece at h
  cases hrow : index Board.new.board pos.x with
  | none => simp [hrow] at h
  | some row =>
    simp only [hrow, Option.bind_eq_bind, Option.some_bind] at h
    have h1 := (index_eq_some _ _ _ hrow).2.2
    have hr := List.eq_of_mem_replicate h1
    have h2 := (index_eq_some _ _ _ h).2.2
    rw [hr] at h2
    exact List.eq_of_mem_replicate h2

theorem Board.placePiece_of_valid (b : Board) (hb : b.WF) (pos : Position)
    (hp : pos.isValid = true) (piece : Option Piece) :
    (∃ p, b.getPiece pos = some (some p) ∧ b.placePiece pos piece = some (false, b)) ∨
    (b.getPiece pos = some none ∧ ∃ b', b.placePiece pos piece = some (true, b') ∧ b'.WF ∧
      ∀ q, b'.getPiece q = if q = pos then some piece else b.getPiece q) := by
  obtain ⟨cell, hcell⟩ := b.getPiece_of_valid hb pos hp
  obtain ⟨b', hb', hwf, hget⟩ := b.assign_of_valid hb pos hp piece
  cases cell with
  | some p =>
    left
    exact ⟨p, hcell, by simp [Board.placePiece, Board.isOccupied_eq, hcell]⟩
  | none =>
    right
    exact ⟨hcell, b', by simp [Board.placePiece, Board.isOccupied_eq, hcell, hb'], hwf, hget⟩

/-! ## Invariant of the reachable games -/

theorem Game.new_Inv : Game.new.Inv false where
  wf := Board.new_WF
  white := by intro loc h; cases h
  king := by intro h; cases h
  unset := fun _ => rfl
  nodup := List.nodup_nil
  kingNotWhite := by intro h; cases h

theorem Game.call_Inv (g : Game) (k : Bool) (hg : g.Inv k) (c : Call)
    (hc : c.pos.isValid = true) :
    ∃ placed g', g.call c = some (placed, g') ∧ g'.Inv (k || c.kingPlaced placed) := by
  cases c with
  | setBlackKing pos =>
    rcases g.board.placePiece_of_valid hg.wf pos hc (some Piece.King) with
      ⟨p, hocc, hpl⟩ | ⟨hfree, b', hpl, hwf, hget⟩
    · refine ⟨false, g, by simp [Game.call, Game.setBlackKing, hpl], ?_⟩
      simpa [Call.kingPlaced] using hg
    · refine ⟨true, { g with board := b', blackKingPos := pos },
        by simp [Game.call, Game.setBlackKing, hpl], ?_⟩
      have hnot : pos ∉ g.whitePieces := by
        intro hmem
        obtain ⟨piece, hpiece⟩ := hg.white pos hmem
        rw [hfree] at hpiece
        cases hpiece
      refine ⟨hwf, ?_, ?_, ?_, hg.nodup, hnot⟩
      · intro loc hloc
        obtain ⟨piece, hpiece⟩ := hg.white loc hloc
        have hne : loc ≠ pos := fun h => hnot (h ▸ hloc)
        exact ⟨piece, by simp only [hget, hne, if_false]; exact hpiece⟩
      · intro _
        simp [hget]
      · intro h
        simp [Call.kingPlaced] at h
  | addWhitePiece pos piece =>
    rcases g.board.placePiece_of_valid hg.wf pos hc (some piece) with
      ⟨p, hocc, hpl⟩ | ⟨hfree, b', hpl, hwf, hget⟩
    · refine ⟨false, g, by simp [Game.call, Game.addWhitePiece, hpl], ?_⟩
      simpa [Call.kingPlaced] using hg
    · refine ⟨true, { g with board := b', whitePieces := g.whitePieces ++ [pos] },
        by simp [Game.call, Game.addWhitePiece, hpl], ?_⟩
      have hnot : pos ∉ g.whitePieces := by
        intro hmem
        obtain ⟨q, hq⟩ := hg.white pos hmem
        rw [hfree] at hq
        cases hq
      have hking : g.blackKingPos ≠ pos := by
        intro h
        cases hk : k with
        | true =>
          have := hg.king hk
          rw [h, hfree] at this
          cases this
        | false =>
          have := hg.unset hk
          rw [h] at this
          rw [this] at hc
          simp [Call.pos, Position.isValid] at hc
      simp only [Call.kingPlaced, Bool.or_false]
      refine ⟨hwf, ?_, ?_, hg.unset, ?_, ?_⟩
      · intro loc hloc
        rcases List.mem_append.1 hloc with h | h
        · obtain ⟨q, hq⟩ := hg.white loc h
          have hne : loc ≠ pos := fun e => hnot (e ▸ h)
          exact ⟨q, by simp only [hget, hne, if_false]; exact hq⟩
        · have : loc = pos := by simpa using h
          exact ⟨piece, by simp [hget, this]⟩
      · intro hk
        simp only [hget, hking, if_false]
        exact hg.king hk
      · exact List.Nodup.append hg.nodup (List.nodup_singleton pos)
          (by
            intro a ha hb
            have : a = pos := by simpa using hb
            exact hnot (this ▸ ha))
      · intro h
        rcases List.mem_append.1 h with h | h
        · exact hg.kingNotWhite h
        · exact hking (by simpa using h)

theorem Game.run_Inv (calls : List Call) :
    ∀ (g : Game) (k : Bool), g.Inv k → (∀ c ∈ calls, c.pos.isValid = true) →
      ∃ g' k', g.run k calls = some (g', k') ∧ g'.Inv k' := by
  induction calls with
  | nil =>
    intro g k hg _
    exact ⟨g, k, rfl, hg⟩
  | cons c cs ih =>
    intro g k hg hvalid
    obtain ⟨placed, g1, hcall, hinv⟩ := g.call_Inv k hg c (hvalid c (List.mem_cons_self _ _))
    obtain ⟨g', k', hrun, hinv'⟩ := ih g1 _ hinv (fun d hd => hvalid d (List.mem_cons_of_mem _ hd))
    exact ⟨g', k', by simp [Game.run, hcall, hrun], hinv'⟩

theorem Game.ReachedBy.inv {calls : List Call} {g : Game} {k : Bool}
    (h : Game.ReachedBy calls g k) : g.Inv k := by
  obtain ⟨g', k', hrun, hinv⟩ := Game.run_Inv calls Game.new false Game.new_Inv h.1
  rw [h.2] at hrun
  cases hrun
  exact hinv

/-! ## The scanning loops -/

theorem scanMoves_iff (pos : Position) (moves : List Position) :
    scanMoves pos moves = true ↔ pos ∈ moves := by
  induction moves with
  | nil => simp [scanMoves]
  | cons move rest ih =>
    unfold scanMoves
    by_cases h : move.eq pos = true
    · have e := (Position.eq_iff _ _).1 h
      subst e
      simp [h]
    · have hne : ¬ pos = move := fun e => h ((Position.eq_iff _ _).2 e.symm)
      simp [h, ih, hne]

theorem scanPieces_spec (b : Board) (t : Position) (l : List Position)
    (h : ∀ loc ∈ l, ∃ piece, b.getPiece loc = some (some piece)) :
    ∃ r, scanPieces b t l = some r ∧
      (r = true ↔ ∃ loc ∈ l, ∃ piece, b.getPiece loc = some (some piece) ∧
        t ∈ piece.getMoves loc) := by
  induction l with
  | nil => exact ⟨false, rfl, by simp⟩
  | cons loc rest ih =>
    obtain ⟨piece, hpiece⟩ := h loc (List.mem_cons_self _ _)
    obtain ⟨r, hr, hiff⟩ := ih (fun q hq => h q (List.mem_cons_of_mem _ hq))
    by_cases hscan : scanMoves t (piece.getMoves loc) = true
    · refine ⟨true, by simp [scanPieces, hpiece, hscan], ?_⟩
      simp only [true_iff]
      exact ⟨loc, List.mem_cons_self _ _, piece, hpiece, (scanMoves_iff _ _).1 hscan⟩
    · refine ⟨r, by simp [scanPieces, hpiece, hscan, hr], ?_⟩
      rw [hiff]
      constructor
      · rintro ⟨q, hq, piece', h1, h2⟩
        exact ⟨q, List.mem_cons_of_mem _ hq, piece', h1, h2⟩
      · rintro ⟨q, hq, piece', h1, h2⟩
        rcases List.mem_cons.1 hq with e | hq'
        · subst e
          rw [hpiece] at h1
          cases h1
          exact absurd ((scanMoves_iff _ _).2 h2) hscan
        · exact ⟨q, hq', piece', h1, h2⟩

theorem Game.isThreatened_spec (g : Game) (k : Bool) (hg : g.Inv k) (t : Position) :
    ∃ r, g.isThreatened t = some r ∧
      (r = true ↔ ∃ loc ∈ g.whitePieces, ∃ piece, g.board.getPiece loc = some (some piece) ∧
        t ∈ piece.getMoves loc) :=
  scanPieces_spec g.board t g.whitePieces hg.white

theorem Game.isCheck_eq_isThreatened (g : Game) (p : Position) :
    g.isCheck p = g.isThreatened p := rfl

theorem Game.scanKingMoves_spec (g : Game) (k : Bool) (hg : g.Inv k) (ms : List Position)
    (hms : ∀ m ∈ ms, m.isValid = true) :
    ∃ r, g.scanKingMoves ms = some r ∧
      (r = true ↔ ∃ m ∈ ms,
        (g.board.isOccupied m = some false ∨
          ∃ q, g.board.getPiece m = some (some q) ∧ q.getType ≠ PieceType.KING) ∧
        g.isThreatened m = some false) := by
  induction ms with
  | nil => exact ⟨false, rfl, by simp⟩
  | cons m rest ih =>
    obtain ⟨r, hr, hiff⟩ := ih (fun q hq => hms q (List.mem_cons_of_mem _ hq))
    obtain ⟨cell, hcell⟩ := g.board.getPiece_of_valid hg.wf m (hms m (List.mem_cons_self _ _))
    obtain ⟨th, hth, -⟩ := g.isThreatened_spec k hg m
    have hocc : g.board.isOccupied m = some (cell != none) := by
      simp [Board.isOccupied_eq, hcell]
    -- whether the square qualifies as an escape square
    by_cases hq : (cell = none ∨ ∃ q, cell = some q ∧ q.getType ≠ PieceType.KING) ∧ th = false
    · refine ⟨true, ?_, ?_⟩
      · obtain ⟨hfree, hth'⟩ := hq
        subst hth'
        rcases hfree with rfl | ⟨q, rfl, hne⟩
        · simp [Game.scanKingMoves, hocc, hth]
        · simp [Game.scanKingMoves, hocc, hcell, hth, hne]
      · simp only [true_iff]
        refine ⟨m, List.mem_cons_self _ _, ?_, by rw [hth, hq.2]⟩
        rcases hq.1 with rfl | ⟨q, rfl, hne⟩
        · left; simp [hocc]
        · right; exact ⟨q, hcell, hne⟩
    · refine ⟨r, ?_, ?_⟩
      · cases cell with
        | none =>
          have : th = true := by simpa using hq
          subst this
          simp [Game.scanKingMoves, hocc, hth, hr]
        | some q =>
          by_cases hk : q.getType = PieceType.KING
          · simp [Game.scanKingMoves, hocc, hcell, hk, hr]
          · have : th = true := by simpa [hk] using hq
            subst this
            simp [Game.scanKingMoves, hocc, hcell, hk, hth, hr]
      · rw [hiff]
        constructor
        · rintro ⟨a, ha, h1, h2⟩
          exact ⟨a, List.mem_cons_of_mem _ ha, h1, h2⟩
        · rintro ⟨a, ha, h1, h2⟩
          rcases List.mem_cons.1 ha with e | ha'
          · subst e
            exfalso
            apply hq
            rw [hth] at h2
            refine ⟨?_, by simpa using h2⟩
            rcases h1 with h1 | ⟨q, h1, h3⟩
            · rw [hocc] at h1
              left
              simpa using h1
            · rw [hcell] at h1
              right
              exact ⟨q, by simpa using h1, h3⟩
          · exact ⟨a, ha', h1, h2⟩

theorem Game.hasLegalMoves_spec (g : Game) (k : Bool) (hg : g.Inv k) (kingPos : Position)
    (piece : Piece) (hpiece : g.board.getPiece kingPos = some (some piece)) :
    ∃ r, g.hasLegalMoves kingPos = some r ∧
      (r = true ↔ ∃ m ∈ piece.getMoves kingPos,
        (g.board.isOccupied m = some false ∨
          ∃ q, g.board.getPiece m = some (some q) ∧ q.getType ≠ PieceType.KING) ∧
        g.isThreatened m = some false) := by
  have h := g.scanKingMoves_spec k hg (piece.getMoves kingPos)
    (fun m hm => mem_getMoves_isValid piece kingPos m hm)
  simpa [Game.hasLegalMoves, hpiece] using h

theorem pair_eq_one_two (a b : Int) :
    ({a, b} : Finset Int) = {1, 2} ↔ (a = 1 ∧ b = 2) ∨ (a = 2 ∧ b = 1) := by
  constructor
  · intro h
    have h1 : (1 : Int) ∈ ({a, b} : Finset Int) := by rw [h]; simp
    have h2 : (2 : Int) ∈ ({a, b} : Finset Int) := by rw [h]; simp
    simp only [Finset.mem_insert, Finset.mem_singleton] at h1 h2
    omega
  · rintro (⟨rfl, rfl⟩ | ⟨rfl, rfl⟩)
    · rfl
    · exact Finset.pair_comm 2 1

/-! ## The claims -/

/-- C4: in every reachable game and for every target position, `isThreatened`
returns, and it returns true exactly when some location of the white-piece list
holds a piece whose `getMoves` from that location contains the target. -/
theorem isThreatened_iff_some_white_piece_moves (g : Game) (h : g.Reachable)
    (target : Position) :
    (∃ r, g.isThreatened target = some r) ∧
    (g.isThreatened target = some true ↔
      ∃ loc ∈ g.whitePieces, ∃ piece, g.board.getPiece loc = some (some piece) ∧
        target ∈ piece.getMoves loc) := by
  obtain ⟨calls, k, hreach⟩ := h
  obtain ⟨r, hr, hiff⟩ := g.isThreatened_spec k hreach.inv target
  refine ⟨⟨r, hr⟩, ?_⟩
  rw [hr, ← hiff]
  simp

/-- C5, as amended: in every reachable game and for every in-bounds occupied
square `kingPos`, `hasLegalMoves kingPos` returns, and it returns true exactly
when some square in the movement set of the piece standing on `kingPos` (the
King-policy set when that piece is a King) is unoccupied or occupied by a piece
whose type is not `KING`, and is not threatened according to `isThreatened`. -/
theorem hasLegalMoves_iff_occupant_has_safe_move (g : Game) (h : g.Reachable)
    (kingPos : Position) (hvalid : kingPos.isValid = true)
    (hocc : g.board.isOccupied kingPos = some true) :
    ∃ piece, g.board.getPiece kingPos = some (some piece) ∧
      (∃ r, g.hasLegalMoves kingPos = some r) ∧
      (g.hasLegalMoves kingPos = some true ↔
        ∃ m ∈ piece.getMoves kingPos,
          (g.board.isOccupied m = some false ∨
            ∃ q, g.board.getPiece m = some (some q) ∧ q.getType ≠ PieceType.KING) ∧
          g.isThreatened m = some false) := by
  obtain ⟨calls, k, hreach⟩ := h
  obtain ⟨cell, hcell⟩ := g.board.getPiece_of_valid hreach.inv.wf kingPos hvalid
  cases cell with
  | none => simp [Board.isOccupied_eq, hcell] at hocc
  | some piece =>
    obtain ⟨r, hr, hiff⟩ := g.hasLegalMoves_spec k hreach.inv kingPos piece hcell
    refine ⟨piece, hcell, ⟨r, hr⟩, ?_⟩
    rw [hr, ← hiff]
    simp

/-- C1: in every game reached from a fresh `Game` by in-bounds calls of
`setBlackKing` and `addWhitePiece` with non-null pieces, `setBlackKing` having
succeeded at least once, `isCheckmate` returns, and it returns true exactly when
(a) the recorded black-king square is in the movement set of some white piece,
computed from that piece's location, and (b) every in-bounds square at unit
offset from the king square is occupied by a King piece or is in the movement
set of some white piece. -/
theorem isCheckmate_iff_attacked_and_no_escape (g : Game) (h : g.ReachableKingSet) :
    (∃ r, g.isCheckmate = some r) ∧
    (g.isCheckmate = some true ↔
      (∃ loc ∈ g.whitePieces, ∃ piece, g.board.getPiece loc = some (some piece) ∧
        g.blackKingPos ∈ piece.getMoves loc) ∧
      (∀ q : Position, q.isValid = true →
        max |q.x - g.blackKingPos.x| |q.y - g.blackKingPos.y| = 1 →
        (∃ piece, g.board.getPiece q = some (some piece) ∧ piece.getType = PieceType.KING) ∨
        (∃ loc ∈ g.whitePieces, ∃ piece, g.board.getPiece loc = some (some piece) ∧
          q ∈ piece.getMoves loc))) := by
  obtain ⟨calls, hreach⟩ := h
  have hg := hreach.inv
  have hking := hg.king rfl
  obtain ⟨c, hc, hciff⟩ := g.isThreatened_spec true hg g.blackKingPos
  obtain ⟨e, he, heiff⟩ := g.hasLegalMoves_spec true hg g.blackKingPos Piece.King hking
  have hmate : g.isCheckmate = some (c && !e) := by
    cases c <;> simp [Game.isCheckmate, Game.isCheck_eq_isThreatened, hc, he]
  refine ⟨⟨_, hmate⟩, ?_⟩
  rw [hmate]
  have hsplit : (some (c && !e) = some true) ↔ (c = true ∧ ¬ e = true) := by
    cases c <;> cases e <;> simp
  rw [hsplit, hciff, heiff]
  apply and_congr Iff.rfl
  constructor
  · intro hno q hq hunit
    have hmem : q ∈ Piece.King.getMoves g.blackKingPos :=
      (mem_King_getMoves _ _).2 ⟨hq, hunit⟩
    obtain ⟨cell, hcell⟩ := g.board.getPiece_of_valid hg.wf q hq
    obtain ⟨t, ht, htiff⟩ := g.isThreatened_spec true hg q
    by_contra hcon
    push_neg at hcon
    apply hno
    refine ⟨q, hmem, ?_, ?_⟩
    · cases cell with
      | none => left; simp [Board.isOccupied_eq, hcell]
      | some piece => right; exact ⟨piece, hcell, hcon.1 piece hcell⟩
    · cases t with
      | false => exact ht
      | true =>
        obtain ⟨loc, hloc, piece, h1, h2⟩ := htiff.1 rfl
        exact absurd h2 (hcon.2 loc hloc piece h1)
  · rintro hall ⟨m, hm, hfree, hsafe⟩
    obtain ⟨hv, hunit⟩ := (mem_King_getMoves _ _).1 hm
    obtain ⟨t, ht, htiff⟩ := g.isThreatened_spec true hg m
    rcases hall m hv hunit with ⟨piece, h1, h2⟩ | hthr
    · rcases hfree with hfree | ⟨q, h3, h4⟩
      · simp [Board.isOccupied_eq, h1] at hfree
      · rw [h1] at h3
        cases h3
        exact h4 h2
    · have : t = true := htiff.2 hthr
      rw [ht, this] at hsafe
      cases hsafe

/-- Witness for C4: the reference position and the target `(1,1)`. -/
theorem isThreatened_iff_some_white_piece_moves_witness :
    referenceGame.Reachable ∧
    ((∃ r, referenceGame.isThreatened ⟨1, 1⟩ = some r) ∧
     (referenceGame.isThreatened ⟨1, 1⟩ = some true ↔
      ∃ loc ∈ referenceGame.whitePieces, ∃ piece,
        referenceGame.board.getPiece loc = some (some piece) ∧
        (⟨1, 1⟩ : Position) ∈ piece.getMoves loc)) :=
  ⟨⟨referenceCalls, true, by decide, by decide⟩,
   isThreatened_iff_some_white_piece_moves referenceGame
     ⟨referenceCalls, true, by decide, by decide⟩ ⟨1, 1⟩⟩

/-- Counterexample to C5 as stated: with a lone white rook on `(0,0)`, the square
`(0,0)` is in bounds and occupied, `hasLegalMoves (0,0)` returns false because
every rook move from `(0,0)` is threatened by that rook, yet the King-policy
neighbour `(1,1)` is unoccupied and not threatened. -/
theorem hasLegalMoves_king_policy_counterexample :
    loneRookGame.Reachable ∧
    Position.isValid ⟨0, 0⟩ = true ∧
    loneRookGame.board.isOccupied ⟨0, 0⟩ = some true ∧
    ¬ (loneRookGame.hasLegalMoves ⟨0, 0⟩ = some true ↔
        ∃ m ∈ King.getMoves ⟨0, 0⟩,
          (loneRookGame.board.isOccupied m = some false ∨
            ∃ q, loneRookGame.board.getPiece m = some (some q) ∧ q.getType ≠ PieceType.KING) ∧
          loneRookGame.isThreatened m = some false) := by
  refine ⟨⟨[.addWhitePiece ⟨0, 0⟩ .Rook], false, by decide, by decide⟩, by decide, by decide, ?_⟩
  intro hiff
  have hfalse : loneRookGame.hasLegalMoves ⟨0, 0⟩ = some false := by decide
  have htrue := hiff.2 ⟨⟨1, 1⟩, by decide, Or.inl (by decide), by decide⟩
  rw [hfalse] at htrue
  cases htrue

/-- Witness for C5 as amended: the reference position and the king square
`(1,1)`. -/
theorem hasLegalMoves_iff_occupant_has_safe_move_witness :
    referenceGame.Reachable ∧ Position.isValid ⟨1, 1⟩ = true ∧
    referenceGame.board.isOccupied ⟨1, 1⟩ = some true ∧
    ∃ piece, referenceGame.board.getPiece ⟨1, 1⟩ = some (some piece) ∧
      (∃ r, referenceGame.hasLegalMoves ⟨1, 1⟩ = some r) ∧
      (referenceGame.hasLegalMoves ⟨1, 1⟩ = some true ↔
        ∃ m ∈ piece.getMoves ⟨1, 1⟩,
          (referenceGame.board.isOccupied m = some false ∨
            ∃ q, referenceGame.board.getPiece m = some (some q) ∧
              q.getType ≠ PieceType.KING) ∧
          referenceGame.isThreatened m = some false) :=
  ⟨⟨referenceCalls, true, by decide, by decide⟩, by decide, by decide,
   hasLegalMoves_iff_occupant_has_safe_move referenceGame
     ⟨referenceCalls, true, by decide, by decide⟩ ⟨1, 1⟩ (by decide) (by decide)⟩

/-- Witness for C1: the reference position. -/
theorem isCheckmate_iff_attacked_and_no_escape_witness :
    referenceGame.ReachableKingSet ∧
    ((∃ r, referenceGame.isCheckmate = some r) ∧
     (referenceGame.isCheckmate = some true ↔
      (∃ loc ∈ referenceGame.whitePieces, ∃ piece,
        referenceGame.board.getPiece loc = some (some piece) ∧
        referenceGame.blackKingPos ∈ piece.getMoves loc) ∧
      (∀ q : Position, q.isValid = true →
        max |q.x - referenceGame.blackKingPos.x| |q.y - referenceGame.blackKingPos.y| = 1 →
        (∃ piece, referenceGame.board.getPiece q = some (some piece) ∧
          piece.getType = PieceType.KING) ∨
        (∃ loc ∈ referenceGame.whitePieces, ∃ piece,
          referenceGame.board.getPiece loc = some (some piece) ∧
          q ∈ piece.getMoves loc)))) :=
  ⟨⟨referenceCalls, by decide, by decide⟩,
   isCheckmate_iff_attacked_and_no_escape referenceGame ⟨referenceCalls, by decide, by decide⟩⟩

/-- C2: in the reference position every call of `main` succeeds, the piece on
`(1,1)` is the king, `isCheck (1,1)` is true, every square of the king's
movement set from `(1,1)` is occupied by a King or threatened, so
`hasLegalMoves (1,1)` is false, and `isCheckmate` returns true. -/
theorem reference_position_is_checkmate :
    Game.new.flags referenceCalls = some [true, true, true, true, true] ∧
    Game.ReachedBy referenceCalls referenceGame true ∧
    referenceGame.blackKingPos = ⟨1, 1⟩ ∧
    referenceGame.board.getPiece ⟨1, 1⟩ = some (some Piece.King) ∧
    referenceGame.isCheck ⟨1, 1⟩ = some true ∧
    (∀ m ∈ King.getMoves ⟨1, 1⟩,
      (∃ q, referenceGame.board.getPiece m = some (some q) ∧ q.getType = PieceType.KING) ∨
      referenceGame.isThreatened m = some true) ∧
    referenceGame.hasLegalMoves ⟨1, 1⟩ = some false ∧
    referenceGame.isCheckmate = some true := by
  refine ⟨by decide, ⟨by decide, by decide⟩, by decide, by decide, by decide, ?_,
    by decide, by decide⟩
  have hall : ∀ m ∈ King.getMoves ⟨1, 1⟩, referenceGame.isThreatened m = some true := by
    decide
  exact fun m hm => Or.inr (hall m hm)

/-- Counterexample to C3 as stated: in the reference position without the rook,
the queen on `(1,2)` has `(1,1)` in its movement set and `isCheck (1,1)` returns
true, not false. -/
theorem no_rook_isCheck_counterexample :
    Game.ReachedBy referenceCallsNoRook noRookGame true ∧
    noRookGame.board.getPiece ⟨1, 2⟩ = some (some Piece.Queen) ∧
    (⟨1, 2⟩ : Position) ∈ noRookGame.whitePieces ∧
    (⟨1, 1⟩ : Position) ∈ Piece.Queen.getMoves ⟨1, 2⟩ ∧
    ¬ noRookGame.isCheck ⟨1, 1⟩ = some false := by
  refine ⟨⟨by decide, by decide⟩, by decide, by decide, by decide, by decide⟩

/-- C3, as amended: in the reference position without the rook every call
succeeds, `isCheck (1,1)` is true because the queen on `(1,2)` has `(1,1)` in its
movement set, `hasLegalMoves (1,1)` is true because the queen's square `(1,2)`
is in the king's movement set, holds no King and is not threatened, and hence
`isCheckmate` returns false. -/
theorem no_rook_position_not_checkmate :
    Game.new.flags referenceCallsNoRook = some [true, true, true, true] ∧
    Game.ReachedBy referenceCallsNoRook noRookGame true ∧
    noRookGame.blackKingPos = ⟨1, 1⟩ ∧
    noRookGame.whitePieces = [⟨1, 2⟩, ⟨5, 5⟩, ⟨4, 4⟩] ∧
    noRookGame.board.getPiece ⟨1, 2⟩ = some (some Piece.Queen) ∧
    (⟨1, 1⟩ : Position) ∈ Piece.Queen.getMoves ⟨1, 2⟩ ∧
    noRookGame.isCheck ⟨1, 1⟩ = some true ∧
    (⟨1, 2⟩ : Position) ∈ King.getMoves ⟨1, 1⟩ ∧
    noRookGame.isThreatened ⟨1, 2⟩ = some false ∧
    noRookGame.hasLegalMoves ⟨1, 1⟩ = some true ∧
    noRookGame.isCheckmate = some false := by
  refine ⟨by decide, ⟨by decide, by decide⟩, by decide, by decide, by decide, by decide,
    by decide, by decide, by decide, by decide, by decide⟩

/-- C6: for every piece kind and every origin, in bounds or not, every position
in the list returned by `getMoves` satisfies `isValid`, that is, has
`0 ≤ x < 8` and `0 ≤ y < 8`. -/
theorem getMoves_only_valid_positions (kind : Piece) (origin p : Position)
    (h : p ∈ kind.getMoves origin) :
    p.isValid = true ∧ (0 ≤ p.x ∧ p.x < 8) ∧ (0 ≤ p.y ∧ p.y < 8) := by
  have hv := mem_getMoves_isValid kind origin p h
  have := (Position.isValid_iff p).1 hv
  exact ⟨hv, ⟨this.1, this.2.1⟩, ⟨this.2.2.1, this.2.2.2⟩⟩

/-- Witness for C6: a queen on the out-of-bounds origin `(-1,-1)` reaches
`(0,0)`. -/
theorem getMoves_only_valid_positions_witness :
    (⟨0, 0⟩ : Position) ∈ Piece.Queen.getMoves ⟨-1, -1⟩ ∧
    (Position.isValid ⟨0, 0⟩ = true ∧
      (0 ≤ (⟨0, 0⟩ : Position).x ∧ (⟨0, 0⟩ : Position).x < 8) ∧
      (0 ≤ (⟨0, 0⟩ : Position).y ∧ (⟨0, 0⟩ : Position).y < 8)) :=
  ⟨by decide, getMoves_only_valid_positions Piece.Queen ⟨-1, -1⟩ ⟨0, 0⟩ (by decide)⟩

/-- C7: for every origin `o`, `King::getMoves o` contains `p` exactly when `p`
is in bounds and `max(|p.x - o.x|, |p.y - o.y|) = 1`, and the list has no
duplicates; from `(4,4)` it is the eight neighbours and from `(0,0)` it has
three squares. -/
theorem King_getMoves_unit_offsets :
    (∀ o p : Position, p ∈ King.getMoves o ↔
      p.isValid = true ∧ max |p.x - o.x| |p.y - o.y| = 1) ∧
    (∀ o : Position, (King.getMoves o).Nodup) ∧
    King.getMoves ⟨4, 4⟩ =
      [⟨3, 3⟩, ⟨3, 4⟩, ⟨3, 5⟩, ⟨4, 3⟩, ⟨4, 5⟩, ⟨5, 3⟩, ⟨5, 4⟩, ⟨5, 5⟩] ∧
    (King.getMoves ⟨4, 4⟩).length = 8 ∧
    (King.getMoves ⟨0, 0⟩).length = 3 :=
  ⟨mem_King_getMoves, King_getMoves_nodup, by decide, by decide, by decide⟩

/-- C8: for every origin `o`, `Knight::getMoves o` contains `p` exactly when `p`
is in bounds and `{|p.x - o.x|, |p.y - o.y|} = {1, 2}`, and the list has no
duplicates; from `(4,4)` it has eight squares and from `(0,0)` it is the two
squares `(1,2)` and `(2,1)`. -/
theorem Knight_getMoves_one_two_offsets :
    (∀ o p : Position, p ∈ Knight.getMoves o ↔
      p.isValid = true ∧ ({|p.x - o.x|, |p.y - o.y|} : Finset Int) = {1, 2}) ∧
    (∀ o : Position, (Knight.getMoves o).Nodup) ∧
    (Knight.getMoves ⟨4, 4⟩).length = 8 ∧
    (Knight.getMoves ⟨0, 0⟩).length = 2 ∧
    (∀ p : Position, p ∈ Knight.getMoves ⟨0, 0⟩ ↔ p = ⟨1, 2⟩ ∨ p = ⟨2, 1⟩) := by
  refine ⟨?_, Knight_getMoves_nodup, by decide, by decide, ?_⟩
  · intro o p
    rw [mem_Knight_getMoves, pair_eq_one_two]
  · intro p
    have : Knight.getMoves ⟨0, 0⟩ = [⟨2, 1⟩, ⟨1, 2⟩] := by decide
    rw [this]
    simp only [List.mem_cons, List.mem_singleton, List.not_mem_nil, or_false]
    exact or_comm

/-- C9: for every in-bounds origin `o` and every position `p`,
`Rook::getMoves o` contains `p` exactly when `p` is in bounds, differs from `o`
and shares its `x` or its `y` with `o`; the list has no duplicates and has 14
elements. -/
theorem Rook_getMoves_rank_and_file (o : Position) (ho : o.isValid = true) :
    (∀ p : Position, p ∈ Rook.getMoves o ↔
      p.isValid = true ∧ p ≠ o ∧ (p.x = o.x ∨ p.y = o.y)) ∧
    (Rook.getMoves o).Nodup ∧
    (Rook.getMoves o).length = 14 :=
  ⟨fun p => mem_Rook_getMoves o p ho, Rook_getMoves_nodup_length o ho⟩

/-- Witness for C9: the origin `(3,4)`. -/
theorem Rook_getMoves_rank_and_file_witness :
    Position.isValid ⟨3, 4⟩ = true ∧
    ((∀ p : Position, p ∈ Rook.getMoves ⟨3, 4⟩ ↔
      p.isValid = true ∧ p ≠ ⟨3, 4⟩ ∧
        (p.x = (⟨3, 4⟩ : Position).x ∨ p.y = (⟨3, 4⟩ : Position).y)) ∧
    (Rook.getMoves ⟨3, 4⟩).Nodup ∧
    (Rook.getMoves ⟨3, 4⟩).length = 14) :=
  ⟨by decide, Rook_getMoves_rank_and_file ⟨3, 4⟩ (by decide)⟩

/-- C10: for every in-bounds origin `o` and every position `p`,
`Bishop::getMoves o` contains `p` exactly when `p` is in bounds, differs from
`o` and `|p.x - o.x| = |p.y - o.y|`; the list has no duplicates. -/
theorem Bishop_getMoves_diagonals (o : Position) (ho : o.isValid = true) :
    (∀ p : Position, p ∈ Bishop.getMoves o ↔
      p.isValid = true ∧ p ≠ o ∧ |p.x - o.x| = |p.y - o.y|) ∧
    (Bishop.getMoves o).Nodup :=
  ⟨fun p => mem_Bishop_getMoves o p ho, Bishop_getMoves_nodup o ho⟩

/-- Witness for C10: the origin `(5,5)`. -/
theorem Bishop_getMoves_diagonals_witness :
    Position.isValid ⟨5, 5⟩ = true ∧
    ((∀ p : Position, p ∈ Bishop.getMoves ⟨5, 5⟩ ↔
      p.isValid = true ∧ p ≠ ⟨5, 5⟩ ∧
        |p.x - (⟨5, 5⟩ : Position).x| = |p.y - (⟨5, 5⟩ : Position).y|) ∧
    (Bishop.getMoves ⟨5, 5⟩).Nodup) :=
  ⟨by decide, Bishop_getMoves_diagonals ⟨5, 5⟩ (by decide)⟩

/-! ## Queen, rook and bishop -/

theorem Queen_getMoves_perm (o : Position) :
    (Queen.getMoves o).Perm (Rook.getMoves o ++ Bishop.getMoves o) := by
  unfold Queen.getMoves Rook.getMoves Bishop.getMoves remove_if
  rw [← List.filter_append]
  apply List.Perm.filter
  have h := List.flatMap_append_perm loopIndices
    (fun i : Int =>
      ([⟨o.x + i, o.y⟩, ⟨o.x - i, o.y⟩, ⟨o.x, o.y + i⟩, ⟨o.x, o.y - i⟩] : List Position))
    (fun i : Int =>
      ([⟨o.x + i, o.y + i⟩, ⟨o.x - i, o.y - i⟩, ⟨o.x + i, o.y - i⟩,
        ⟨o.x - i, o.y + i⟩] : List Position))
  exact h.symm

/-- C11: for every origin `o` and every position `p`, `p` is in
`Queen::getMoves o` exactly when it is in `Rook::getMoves o` or in
`Bishop::getMoves o`, and the length of `Queen::getMoves o` is the sum of the
lengths of the other two. -/
theorem Queen_getMoves_union_of_Rook_and_Bishop :
    (∀ o p : Position,
      p ∈ Queen.getMoves o ↔ p ∈ Rook.getMoves o ∨ p ∈ Bishop.getMoves o) ∧
    (∀ o : Position,
      (Queen.getMoves o).length = (Rook.getMoves o).length + (Bishop.getMoves o).length) := by
  constructor
  · intro o p
    rw [(Queen_getMoves_perm o).mem_iff, List.mem_append]
  · intro o
    rw [(Queen_getMoves_perm o).length_eq, List.length_append]

/-! ## Placing and removing on the board -/

theorem set_eq_self_of_getElem? {α : Type} (l : List α) (i : Nat) (a : α)
    (h : l[i]? = some a) : l.set i a = l := by
  apply List.ext_getElem?
  intro j
  by_cases hij : i = j
  · subst hij
    obtain ⟨hlt, -⟩ := List.getElem?_eq_some.1 h
    rw [List.getElem?_set_self (by simpa using hlt), h]
  · rw [List.getElem?_set_ne hij]

theorem index_toNat {α : Type} (v : List α) (i : Int) (a : α) (h : index v i = some a) :
    v[i.toNat]? = some a := by
  unfold index at h
  split at h
  · exact h
  · cases h

theorem Board.assign_self (b : Board) (pos : Position) (cell : Option Piece)
    (h : b.getPiece pos = some cell) : b.assign pos cell = some b := by
  unfold Board.getPiece at h
  cases hrow : index b.board pos.x with
  | none => simp [hrow] at h
  | some row =>
    simp only [hrow, Option.bind_eq_bind, Option.some_bind] at h
    have h1 := set_eq_self_of_getElem? _ _ _ (index_toNat _ _ _ h)
    have h2 := set_eq_self_of_getElem? _ _ _ (index_toNat _ _ _ hrow)
    simp [Board.assign, hrow, h, h1, h2]

theorem Board.assign_assign (b b' : Board) (pos : Position) (c1 c2 : Option Piece)
    (h : b.assign pos c1 = some b') : b'.assign pos c2 = b.assign pos c2 := by
  unfold Board.assign at h
  cases hrow : index b.board pos.x with
  | none => simp [hrow] at h
  | some row =>
    cases hcell : index row pos.y with
    | none => simp [hrow, hcell] at h
    | some cell =>
      simp only [hrow, hcell, Option.bind_eq_bind, Option.some_bind, Option.pure_def,
        Option.some.injEq] at h
      subst h
      have hr := index_eq_some _ _ _ hrow
      have hc := index_eq_some _ _ _ hcell
      have e1 : index (b.board.set pos.x.toNat (row.set pos.y.toNat c1)) pos.x =
          some (row.set pos.y.toNat c1) := by
        rw [index_set _ _ _ _ hr.1 hr.2.1]; simp
      have e2 : index (row.set pos.y.toNat c1) pos.y = some c1 := by
        rw [index_set _ _ _ _ hc.1 hc.2.1]; simp
      simp [Board.assign, hrow, hcell, e1, e2, List.set_set]

/-- C12: on a board with an in-bounds unoccupied square `pos`, `placePiece pos`
with a non-null piece returns true, afterwards `isOccupied pos` is true and
`getPiece pos` is that piece; `removePiece pos` then makes `isOccupied pos`
false and gives back the board from before the placement, cell for cell; and
`removePiece` on the empty cell leaves the board unchanged. -/
theorem placePiece_then_removePiece_restores (b : Board) (hb : b.WF) (pos : Position)
    (hp : pos.isValid = true) (hfree : b.isOccupied pos = some false) (piece : Piece) :
    (∃ b', b.placePiece pos (some piece) = some (true, b') ∧
      b'.isOccupied pos = some true ∧
      b'.getPiece pos = some (some piece) ∧
      ∃ b'', b'.removePiece pos = some b'' ∧
        b''.isOccupied pos = some false ∧
        b'' = b ∧ ∀ q, b''.getPiece q = b.getPiece q) ∧
    b.removePiece pos = some b := by
  have hnone : b.getPiece pos = some none := by
    obtain ⟨cell, hcell⟩ := b.getPiece_of_valid hb pos hp
    cases cell with
    | none => exact hcell
    | some q => simp [Board.isOccupied_eq, hcell] at hfree
  have hrem : b.removePiece pos = some b := b.assign_self pos none hnone
  refine ⟨?_, hrem⟩
  obtain ⟨b', hb', -, hget⟩ := b.assign_of_valid hb pos hp (some piece)
  refine ⟨b', by simp [Board.placePiece, hfree, hb'], ?_, by simp [hget], b, ?_, hfree,
    rfl, fun _ => rfl⟩
  · simp [Board.isOccupied_eq, hget]
  · unfold Board.removePiece
    rw [Board.assign_assign b b' pos _ _ hb']
    exact hrem

/-- Witness for C12: a knight placed on `(2,3)` of the empty board. -/
theorem placePiece_then_removePiece_restores_witness :
    Board.new.WF ∧ Position.isValid ⟨2, 3⟩ = true ∧
    Board.new.isOccupied ⟨2, 3⟩ = some false ∧
    ((∃ b', Board.new.placePiece ⟨2, 3⟩ (some Piece.Knight) = some (true, b') ∧
      b'.isOccupied ⟨2, 3⟩ = some true ∧
      b'.getPiece ⟨2, 3⟩ = some (some Piece.Knight) ∧
      ∃ b'', b'.removePiece ⟨2, 3⟩ = some b'' ∧
        b''.isOccupied ⟨2, 3⟩ = some false ∧
        b'' = Board.new ∧ ∀ q, b''.getPiece q = Board.new.getPiece q) ∧
    Board.new.removePiece ⟨2, 3⟩ = some Board.new) :=
  ⟨Board.new_WF, by decide, by decide,
   placePiece_then_removePiece_restores Board.new Board.new_WF ⟨2, 3⟩ (by decide) (by decide)
     Piece.Knight⟩

/-- C13: on a board with an in-bounds occupied square `pos`, `placePiece pos`
returns false and leaves the board, the occupant of `pos` included, unchanged;
and for any in-bounds `pos`, `placePiece` returns false exactly when `pos` was
occupied and true exactly when it was unoccupied. -/
theorem placePiece_rejects_exactly_occupied (b : Board) (hb : b.WF) (pos : Position)
    (hp : pos.isValid = true) (piece : Option Piece) :
    (b.isOccupied pos = some true →
      b.placePiece pos piece = some (false, b)) ∧
    (∃ placed b', b.placePiece pos piece = some (placed, b') ∧
      (placed = false ↔ b.isOccupied pos = some true) ∧
      (placed = true ↔ b.isOccupied pos = some false) ∧
      (placed = false → b' = b ∧ ∀ q, b'.getPiece q = b.getPiece q)) := by
  rcases b.placePiece_of_valid hb pos hp piece with ⟨p, hocc, hpl⟩ | ⟨hfree, b', hpl, -, -⟩
  · have ho : b.isOccupied pos = some true := by simp [Board.isOccupied_eq, hocc]
    refine ⟨fun _ => hpl, false, b, hpl, ?_, ?_, fun _ => ⟨rfl, fun _ => rfl⟩⟩
    · simp [ho]
    · simp [ho]
  · have ho : b.isOccupied pos = some false := by simp [Board.isOccupied_eq, hfree]
    refine ⟨?_, true, b', hpl, ?_, ?_, ?_⟩
    · intro h
      rw [ho] at h
      cases h
    · simp [ho]
    · simp [ho]
    · intro h
      cases h

/-! ## Rejected and accepted placements in the game -/

theorem Game.place_spec (g : Game) (k : Bool) (hg : g.Inv k) (pos : Position)
    (hp : pos.isValid = true) (piece : Piece) :
    (g.board.isOccupied pos = some true ∧
      g.setBlackKing pos = some (false, g) ∧
      g.addWhitePiece pos (some piece) = some (false, g)) ∨
    (g.board.isOccupied pos = some false ∧
      (∃ b', (∀ q, b'.getPiece q = if q = pos then some (some Piece.King) else g.board.getPiece q) ∧
        g.setBlackKing pos = some (true, { g with board := b', blackKingPos := pos })) ∧
      (∃ b', (∀ q, b'.getPiece q = if q = pos then some (some piece) else g.board.getPiece q) ∧
        g.addWhitePiece pos (some piece) =
          some (true, { g with board := b', whitePieces := g.whitePieces ++ [pos] }))) := by
  rcases g.board.placePiece_of_valid hg.wf pos hp (some Piece.King) with
    ⟨p, hocc, hpl⟩ | ⟨hfree, b1, hpl1, -, hget1⟩
  · left
    rcases g.board.placePiece_of_valid hg.wf pos hp (some piece) with
      ⟨p2, -, hpl2⟩ | ⟨hfree, -⟩
    · exact ⟨by simp [Board.isOccupied_eq, hocc], by simp [Game.setBlackKing, hpl],
        by simp [Game.addWhitePiece, hpl2]⟩
    · rw [hocc] at hfree
      cases hfree
  · right
    rcases g.board.placePiece_of_valid hg.wf pos hp (some piece) with
      ⟨p2, hocc, -⟩ | ⟨-, b2, hpl2, -, hget2⟩
    · rw [hocc] at hfree
      cases hfree
    · exact ⟨by simp [Board.isOccupied_eq, hfree],
        ⟨b1, hget1, by simp [Game.setBlackKing, hpl1]⟩,
        ⟨b2, hget2, by simp [Game.addWhitePiece, hpl2]⟩⟩

/-- C14: in every reachable game and for every in-bounds position `pos`: when
`pos` is occupied, `setBlackKing pos` and `addWhitePiece pos piece` return false
and leave the whole game (board, recorded king location, white-piece list)
unchanged; when `pos` is unoccupied both return true, `setBlackKing` records
`pos` as the king location and `addWhitePiece` appends `pos` at the end of the
white-piece list. -/
theorem occupied_square_rejected_free_square_recorded (g : Game) (h : g.Reachable)
    (pos : Position) (hp : pos.isValid = true) (piece : Piece) :
    (g.board.isOccupied pos = some true →
      g.setBlackKing pos = some (false, g) ∧
      g.addWhitePiece pos (some piece) = some (false, g)) ∧
    (g.board.isOccupied pos = some false →
      (∃ g', g.setBlackKing pos = some (true, g') ∧
        g'.blackKingPos = pos ∧ g'.whitePieces = g.whitePieces ∧
        g'.board.getPiece pos = some (some Piece.King)) ∧
      (∃ g', g.addWhitePiece pos (some piece) = some (true, g') ∧
        g'.whitePieces = g.whitePieces ++ [pos] ∧ g'.blackKingPos = g.blackKingPos ∧
        g'.board.getPiece pos = some (some piece))) := by
  obtain ⟨calls, k, hreach⟩ := h
  rcases g.place_spec k hreach.inv pos hp piece with
    ⟨hocc, h1, h2⟩ | ⟨hfree, ⟨b1, hget1, h1⟩, ⟨b2, hget2, h2⟩⟩
  · refine ⟨fun _ => ⟨h1, h2⟩, ?_⟩
    intro hfree
    rw [hocc] at hfree
    cases hfree
  · refine ⟨?_, fun _ => ⟨⟨_, h1, rfl, rfl, by simp [hget1]⟩, ⟨_, h2, rfl, rfl, by simp [hget2]⟩⟩⟩
    intro hocc
    rw [hfree] at hocc
    cases hocc

/-- Witness for C14: a second king aimed at the queen's square `(1,2)` of the
reference position. -/
theorem occupied_square_rejected_free_square_recorded_witness :
    referenceGame.Reachable ∧ Position.isValid ⟨1, 2⟩ = true ∧
    referenceGame.board.isOccupied ⟨1, 2⟩ = some true ∧
    referenceGame.setBlackKing ⟨1, 2⟩ = some (false, referenceGame) ∧
    referenceGame.addWhitePiece ⟨1, 2⟩ (some Piece.Rook) = some (false, referenceGame) :=
  ⟨⟨referenceCalls, true, by decide, by decide⟩, by decide, by decide,
   (occupied_square_rejected_free_square_recorded referenceGame
     ⟨referenceCalls, true, by decide, by decide⟩ ⟨1, 2⟩ (by decide) Piece.Rook).1 (by decide)⟩

/-- Witness for C13: a piece aimed at the king's square `(1,1)` of the reference
position. -/
theorem placePiece_rejects_exactly_occupied_witness :
    referenceGame.board.WF ∧ Position.isValid ⟨1, 1⟩ = true ∧
    referenceGame.board.isOccupied ⟨1, 1⟩ = some true ∧
    referenceGame.board.placePiece ⟨1, 1⟩ (some Piece.Queen) =
      some (false, referenceGame.board) :=
  ⟨(show Game.ReachedBy referenceCalls referenceGame true from
      ⟨by decide, by decide⟩).inv.wf,
   by decide, by decide,
   (placePiece_rejects_exactly_occupied referenceGame.board
     (show Game.ReachedBy referenceCalls referenceGame true from
      ⟨by decide, by decide⟩).inv.wf
     ⟨1, 1⟩ (by decide) (some Piece.Queen)).1 (by decide)⟩

/-! ## The sentinel king location -/

theorem Game.run_only_addWhitePiece (calls : List Call) :
    ∀ (g g' : Game) (k k' : Bool), (∀ c ∈ calls, c.isAddWhitePiece = true) →
      g.run k calls = some (g', k') → k' = k := by
  induction calls with
  | nil =>
    intro g g' k k' _ h
    simp only [Game.run, Option.some.injEq, Prod.mk.injEq] at h
    exact h.2.symm
  | cons c cs ih =>
    intro g g' k k' honly h
    have hc := honly c (List.mem_cons_self _ _)
    cases hcall : g.call c with
    | none => simp [Game.run, hcall] at h
    | some r =>
      obtain ⟨placed, g1⟩ := r
      simp only [Game.run, hcall, Option.bind_eq_bind, Option.some_bind] at h
      have := ih g1 g' _ k' (fun d hd => honly d (List.mem_cons_of_mem _ hd)) h
      rw [this]
      cases c with
      | setBlackKing pos => simp [Call.isAddWhitePiece] at hc
      | addWhitePiece pos piece => simp [Call.kingPlaced]

theorem Game.sentinel_spec (g : Game) (hg : g.Inv false) :
    g.blackKingPos = ⟨-1, -1⟩ ∧
    g.isThreatened ⟨-1, -1⟩ = some false ∧
    g.isCheck ⟨-1, -1⟩ = some false ∧
    g.isCheckmate = some false ∧
    g.hasLegalMoves ⟨-1, -1⟩ = none := by
  have hk := hg.unset rfl
  obtain ⟨r, hr, hiff⟩ := g.isThreatened_spec false hg ⟨-1, -1⟩
  have hr' : r = false := by
    cases r with
    | false => rfl
    | true =>
      obtain ⟨loc, -, piece, -, hmem⟩ := hiff.1 rfl
      have := mem_getMoves_isValid piece loc _ hmem
      simp [Position.isValid] at this
  subst hr'
  refine ⟨hk, hr, hr, ?_, ?_⟩
  · simp [Game.isCheckmate, Game.isCheck_eq_isThreatened, hk, hr]
  · simp [Game.hasLegalMoves, Board.getPiece, index]

/-- C15: in every game reached from a fresh `Game` by `addWhitePiece` calls only
(in-bounds positions, non-null pieces), no `setBlackKing` has succeeded, the
king location is the sentinel `(-1,-1)`, `isThreatened (-1,-1)` and
`isCheck (-1,-1)` are false and `isCheckmate` returns false; `hasLegalMoves` on
the sentinel has no defined result, so `isCheckmate` returns without evaluating
it. -/
theorem sentinel_king_never_checkmated (calls : List Call) (g : Game) (kingSet : Bool)
    (h : Game.ReachedBy calls g kingSet)
    (honly : ∀ c ∈ calls, c.isAddWhitePiece = true) :
    kingSet = false ∧
    g.blackKingPos = ⟨-1, -1⟩ ∧
    g.isThreatened ⟨-1, -1⟩ = some false ∧
    g.isCheck ⟨-1, -1⟩ = some false ∧
    g.isCheckmate = some false ∧
    g.hasLegalMoves ⟨-1, -1⟩ = none := by
  have hk : kingSet = false := Game.run_only_addWhitePiece calls _ _ _ _ honly h.2
  subst hk
  exact ⟨rfl, g.sentinel_spec h.inv⟩

/-- Witness for C15: a queen and a rook added, no king set. -/
theorem sentinel_king_never_checkmated_witness :
    Game.ReachedBy [.addWhitePiece ⟨1, 2⟩ .Queen, .addWhitePiece ⟨1, 0⟩ .Rook]
      (gameAfter [.addWhitePiece ⟨1, 2⟩ .Queen, .addWhitePiece ⟨1, 0⟩ .Rook]) false ∧
    (∀ c ∈ [Call.addWhitePiece ⟨1, 2⟩ .Queen, Call.addWhitePiece ⟨1, 0⟩ .Rook],
      c.isAddWhitePiece = true) ∧
    (gameAfter [.addWhitePiece ⟨1, 2⟩ .Queen, .addWhitePiece ⟨1, 0⟩ .Rook]).isCheckmate
      = some false :=
  ⟨⟨by decide, by decide⟩, by decide,
   (sentinel_king_never_checkmated
     [.addWhitePiece ⟨1, 2⟩ .Queen, .addWhitePiece ⟨1, 0⟩ .Rook]
     (gameAfter [.addWhitePiece ⟨1, 2⟩ .Queen, .addWhitePiece ⟨1, 0⟩ .Rook]) false
     ⟨by decide, by decide⟩ (by decide)).2.2.2.2.1⟩

/-- C16: in every reachable game and for every position `p`, in bounds or not,
`isCheck p` and `isThreatened p` return, and return the same value. -/
theorem isCheck_same_as_isThreatened (g : Game) (h : g.Reachable) (p : Position) :
    ∃ r, g.isCheck p = some r ∧ g.isThreatened p = some r := by
  obtain ⟨calls, k, hreach⟩ := h
  obtain ⟨r, hr, -⟩ := g.isThreatened_spec k hreach.inv p
  exact ⟨r, by rw [Game.isCheck_eq_isThreatened, hr], hr⟩

/-- Witness for C16: the reference position and the out-of-bounds position
`(8,-3)`. -/
theorem isCheck_same_as_isThreatened_witness :
    referenceGame.Reachable ∧
    ∃ r, referenceGame.isCheck ⟨8, -3⟩ = some r ∧ referenceGame.isThreatened ⟨8, -3⟩ = some r :=
  ⟨⟨referenceCalls, true, by decide, by decide⟩,
   isCheck_same_as_isThreatened referenceGame ⟨referenceCalls, true, by decide, by decide⟩
     ⟨8, -3⟩⟩

/-! ## The placement invariant -/

theorem Game.Inv.placementInvariant {g : Game} {k : Bool} (hg : g.Inv k) :
    g.PlacementInvariant := by
  refine ⟨?_, hg.nodup, ?_⟩
  · intro loc hloc
    obtain ⟨piece, hpiece⟩ := hg.white loc hloc
    exact ⟨g.board.getPiece_eq_some hg.wf loc _ hpiece, by simp [Board.isOccupied_eq, hpiece]⟩
  · cases hk : k with
    | false => exact Or.inl (hg.unset hk)
    | true =>
      have hking := hg.king hk
      exact Or.inr ⟨g.board.getPiece_eq_some hg.wf _ _ hking, ⟨Piece.King, hking, rfl⟩,
        hg.kingNotWhite⟩

theorem Game.PlacementInvariant.inv_of_grid {g : Game} (hwf : g.board.WF)
    (h : g.PlacementInvariant) : ∃ k, g.Inv k := by
  obtain ⟨hwhite, hnodup, hking⟩ := h
  have hw : ∀ loc ∈ g.whitePieces, ∃ piece, g.board.getPiece loc = some (some piece) := by
    intro loc hloc
    obtain ⟨hv, hocc⟩ := hwhite loc hloc
    obtain ⟨cell, hcell⟩ := g.board.getPiece_of_valid hwf loc hv
    cases cell with
    | none => simp [Board.isOccupied_eq, hcell] at hocc
    | some piece => exact ⟨piece, hcell⟩
  rcases hking with hs | ⟨hv, ⟨piece, hpiece, htype⟩, hnot⟩
  · refine ⟨false, hwf, hw, (by intro h; cases h), fun _ => hs, hnodup, ?_⟩
    intro hmem
    have := (hwhite _ hmem).1
    rw [hs] at this
    simp [Position.isValid] at this
  · refine ⟨true, hwf, hw, ?_, (by intro h; cases h), hnodup, hnot⟩
    intro _
    cases piece <;> first | exact hpiece | simp [Piece.getType] at htype

/-- C17: the placement invariant holds of the fresh `Game`, whose grid has the
dimensions the constructor gives it, and every call of `setBlackKing` or
`addWhitePiece` with an in-bounds position and a non-null piece, on a game with
such a grid that satisfies the invariant, returns (true or false) and leaves a
game with such a grid that satisfies the invariant; hence every reachable game
satisfies it. -/
theorem placement_invariant_initial_and_preserved :
    Game.new.PlacementInvariant ∧ Game.new.board.WF ∧
    (∀ (g : Game) (c : Call), g.board.WF → g.PlacementInvariant → c.pos.isValid = true →
      ∃ placed g', g.call c = some (placed, g') ∧ g'.board.WF ∧ g'.PlacementInvariant) ∧
    (∀ g : Game, g.Reachable → g.PlacementInvariant) := by
  refine ⟨Game.new_Inv.placementInvariant, Board.new_WF, ?_, ?_⟩
  · intro g c hwf hinv hc
    obtain ⟨k, hk⟩ := hinv.inv_of_grid hwf
    obtain ⟨placed, g', hcall, hg'⟩ := g.call_Inv k hk c hc
    exact ⟨placed, g', hcall, hg'.wf, hg'.placementInvariant⟩
  · rintro g ⟨calls, k, hreach⟩
    exact hreach.inv.placementInvariant

/-- Witness for C17: the invariant of the reference position is kept by a
rejected `setBlackKing (1,2)`. -/
theorem placement_invariant_initial_and_preserved_witness :
    referenceGame.board.WF ∧ referenceGame.PlacementInvariant ∧
    Position.isValid ⟨1, 2⟩ = true ∧
    ∃ placed g', referenceGame.call (.setBlackKing ⟨1, 2⟩) = some (placed, g') ∧
      g'.board.WF ∧ g'.PlacementInvariant :=
  ⟨(show Game.ReachedBy referenceCalls referenceGame true from
      ⟨by decide, by decide⟩).inv.wf,
   placement_invariant_initial_and_preserved.2.2.2 referenceGame
     ⟨referenceCalls, true, by decide, by decide⟩,
   by decide,
   placement_invariant_initial_and_preserved.2.2.1 referenceGame (.setBlackKing ⟨1, 2⟩)
     (show Game.ReachedBy referenceCalls referenceGame true from
      ⟨by decide, by decide⟩).inv.wf
     (placement_invariant_initial_and_preserved.2.2.2 referenceGame
       ⟨referenceCalls, true, by decide, by decide⟩)
     (by decide)⟩

/-! ## Sliding pieces are not blocked -/

theorem mem_slider_getMoves (piece : Piece) (a t : Position) (ha : a.isValid = true)
    (ht : t.isValid = true) (hne : t ≠ a)
    (hline : ((piece = Piece.Rook ∨ piece = Piece.Queen) ∧ (t.x = a.x ∨ t.y = a.y)) ∨
      ((piece = Piece.Bishop ∨ piece = Piece.Queen) ∧ |t.x - a.x| = |t.y - a.y|)) :
    t ∈ piece.getMoves a := by
  rcases hline with ⟨hk, hl⟩ | ⟨hk, hl⟩
  · have hr : t ∈ Rook.getMoves a := (mem_Rook_getMoves a t ha).2 ⟨ht, hne, hl⟩
    rcases hk with rfl | rfl
    · exact hr
    · exact (Queen_getMoves_perm a).mem_iff.2 (List.mem_append.2 (Or.inl hr))
  · have hb : t ∈ Bishop.getMoves a := (mem_Bishop_getMoves a t ha).2 ⟨ht, hne, hl⟩
    rcases hk with rfl | rfl
    · exact hb
    · exact (Queen_getMoves_perm a).mem_iff.2 (List.mem_append.2 (Or.inr hb))

/-- C19: in every reachable game holding a white rook, bishop or queen on a
location `a` of the white-piece list, every in-bounds target `t` different from
`a` on a rank or file through `a` (rook, queen) or on a diagonal through `a`
(bishop, queen) is threatened, whatever stands between `a` and `t`. -/
theorem sliding_pieces_threaten_through_occupied_squares (g : Game) (h : g.Reachable)
    (a t : Position) (piece : Piece) (ha : a ∈ g.whitePieces)
    (hpiece : g.board.getPiece a = some (some piece))
    (ht : t.isValid = true) (hne : t ≠ a)
    (hline : ((piece = Piece.Rook ∨ piece = Piece.Queen) ∧ (t.x = a.x ∨ t.y = a.y)) ∨
      ((piece = Piece.Bishop ∨ piece = Piece.Queen) ∧ |t.x - a.x| = |t.y - a.y|)) :
    t ∈ piece.getMoves a ∧ g.isThreatened t = some true := by
  obtain ⟨calls, k, hreach⟩ := h
  have hg := hreach.inv
  have hav := g.board.getPiece_eq_some hg.wf a _ hpiece
  have hmem := mem_slider_getMoves piece a t hav ht hne hline
  obtain ⟨r, hr, hiff⟩ := g.isThreatened_spec k hg t
  have : r = true := hiff.2 ⟨a, ha, piece, hpiece, hmem⟩
  rw [hr, this]
  exact ⟨hmem, rfl⟩

/-- Witness for C19: in the reference position the queen on `(1,2)` threatens
`(1,0)` although the black king on `(1,1)` stands between them. -/
theorem sliding_pieces_threaten_through_occupied_squares_witness :
    referenceGame.Reachable ∧
    (⟨1, 2⟩ : Position) ∈ referenceGame.whitePieces ∧
    referenceGame.board.getPiece ⟨1, 2⟩ = some (some Piece.Queen) ∧
    referenceGame.board.getPiece ⟨1, 1⟩ = some (some Piece.King) ∧
    referenceGame.blackKingPos = ⟨1, 1⟩ ∧
    Position.isValid ⟨1, 0⟩ = true ∧
    ((⟨1, 0⟩ : Position) ∈ Piece.Queen.getMoves ⟨1, 2⟩ ∧
      referenceGame.isThreatened ⟨1, 0⟩ = some true) :=
  ⟨⟨referenceCalls, true, by decide, by decide⟩, by decide, by decide, by decide, by decide,
   by decide,
   sliding_pieces_threaten_through_occupied_squares referenceGame
     ⟨referenceCalls, true, by decide, by decide⟩ ⟨1, 2⟩ ⟨1, 0⟩ Piece.Queen
     (by decide) (by decide) (by decide) (by decide)
     (Or.inl ⟨Or.inr rfl, Or.inl rfl⟩)⟩

/-! ## Adding an attacker -/

theorem Game.isCheckmate_eq_some_true (g : Game) :
    g.isCheckmate = some true ↔
      g.isThreatened g.blackKingPos = some true ∧
      g.hasLegalMoves g.blackKingPos = some false := by
  unfold Game.isCheckmate
  rw [Game.isCheck_eq_isThreatened]
  cases h1 : g.isThreatened g.blackKingPos with
  | none => simp
  | some c =>
    cases c with
    | false => simp
    | true =>
      cases h2 : g.hasLegalMoves g.blackKingPos with
      | none => simp
      | some e => cases e <;> simp

/-- What a successful `addWhitePiece` leaves: the game before, the invariant
after, and the cells and the list after in terms of those before. -/
theorem Game.addWhitePiece_placed (g g' : Game) (k : Bool) (hg : g.Inv k) (pos : Position)
    (hp : pos.isValid = true) (piece : Piece)
    (hadd : g.addWhitePiece pos (some piece) = some (true, g')) :
    g'.Inv k ∧ g.board.getPiece pos = some none ∧
    (∀ q, g'.board.getPiece q = if q = pos then some (some piece) else g.board.getPiece q) ∧
    g'.whitePieces = g.whitePieces ++ [pos] ∧ g'.blackKingPos = g.blackKingPos := by
  have hinv : g'.Inv k := by
    obtain ⟨placed, g1, hcall, hg1⟩ := g.call_Inv k hg (.addWhitePiece pos piece) hp
    simp only [Game.call] at hcall
    rw [hadd] at hcall
    simp only [Option.some.injEq, Prod.mk.injEq] at hcall
    obtain ⟨-, rfl⟩ := hcall
    simpa [Call.kingPlaced] using hg1
  rcases g.place_spec k hg pos hp piece with ⟨-, -, h2⟩ | ⟨hfree, -, ⟨b2, hget2, h2⟩⟩
  · rw [hadd] at h2
    simp at h2
  · rw [hadd] at h2
    simp only [Option.some.injEq, Prod.mk.injEq, true_and] at h2
    subst h2
    obtain ⟨cell, hcell⟩ := g.board.getPiece_of_valid hg.wf pos hp
    have : cell = none := by
      cases cell with
      | none => rfl
      | some q => simp [Board.isOccupied_eq, hcell] at hfree
    subst this
    exact ⟨hinv, hcell, hget2, rfl, rfl⟩

theorem Game.isThreatened_mono (g g' : Game) (k : Bool) (hg : g.Inv k) (pos : Position)
    (hp : pos.isValid = true) (piece : Piece)
    (hadd : g.addWhitePiece pos (some piece) = some (true, g')) (t : Position)
    (ht : g.isThreatened t = some true) : g'.isThreatened t = some true := by
  obtain ⟨hg', hfree, hget, hw, -⟩ := g.addWhitePiece_placed g' k hg pos hp piece hadd
  obtain ⟨r, hr, hiff⟩ := g.isThreatened_spec k hg t
  obtain ⟨r', hr', hiff'⟩ := g'.isThreatened_spec k hg' t
  rw [hr] at ht
  cases ht
  obtain ⟨loc, hloc, q, hq, hmem⟩ := hiff.1 rfl
  have hne : loc ≠ pos := by
    rintro rfl
    rw [hfree] at hq
    cases hq
  have : r' = true :=
    hiff'.2 ⟨loc, by rw [hw]; exact List.mem_append_left _ hloc, q,
      by rw [hget, if_neg hne]; exact hq, hmem⟩
  rw [hr', this]

theorem Game.hasLegalMoves_mono (g g' : Game) (hg : g.Inv true) (pos : Position)
    (hp : pos.isValid = true) (piece : Piece)
    (hadd : g.addWhitePiece pos (some piece) = some (true, g'))
    (hno : g.hasLegalMoves g.blackKingPos = some false) :
    g'.hasLegalMoves g'.blackKingPos = some false := by
  obtain ⟨hg', hfree, hget, hw, hking⟩ := g.addWhitePiece_placed g' true hg pos hp piece hadd
  obtain ⟨r, hr, hiff⟩ := g.hasLegalMoves_spec true hg g.blackKingPos Piece.King (hg.king rfl)
  obtain ⟨r', hr', hiff'⟩ :=
    g'.hasLegalMoves_spec true hg' g'.blackKingPos Piece.King (hg'.king rfl)
  rw [hr] at hno
  cases hno
  rw [hr']
  cases r' with
  | false => rfl
  | true =>
    exfalso
    obtain ⟨m, hm, hesc, hsafe⟩ := hiff'.1 rfl
    rw [hking] at hm
    have hmv : m.isValid = true := mem_getMoves_isValid _ _ _ hm
    obtain ⟨th, hth, -⟩ := g.isThreatened_spec true hg m
    have hth' : th = false := by
      cases th with
      | false => rfl
      | true =>
        have := g.isThreatened_mono g' true hg pos hp piece hadd m hth
        rw [this] at hsafe
        cases hsafe
    subst hth'
    have hesc' : g.board.isOccupied m = some false ∨
        ∃ q, g.board.getPiece m = some (some q) ∧ q.getType ≠ PieceType.KING := by
      by_cases hmp : m = pos
      · left
        rw [hmp]
        simp [Board.isOccupied_eq, hfree]
      · rcases hesc with h1 | ⟨q, h1, h2⟩
        · left
          rw [Board.isOccupied_eq, hget, if_neg hmp] at h1
          rw [Board.isOccupied_eq]
          exact h1
        · right
          rw [hget, if_neg hmp] at h1
          exact ⟨q, h1, h2⟩
    have : false = true := hiff.2 ⟨m, hm, hesc', hth⟩
    cases this

/-- C20: in every reachable game in which the black king has been set, a
successful `addWhitePiece` on any in-bounds position with any piece kind never
turns `isThreatened t` from true to false for any `t`, never turns
`hasLegalMoves` on the king location from false to true, and keeps
`isCheckmate` true when it was true. -/
theorem addWhitePiece_keeps_checkmate (g : Game) (h : g.ReachableKingSet) (pos : Position)
    (hp : pos.isValid = true) (piece : Piece) (g' : Game)
    (hadd : g.addWhitePiece pos (some piece) = some (true, g')) :
    (∀ t, g.isThreatened t = some true → g'.isThreatened t = some true) ∧
    (g.hasLegalMoves g.blackKingPos = some false →
      g'.hasLegalMoves g'.blackKingPos = some false) ∧
    (g.isCheckmate = some true → g'.isCheckmate = some true) := by
  obtain ⟨calls, hreach⟩ := h
  have hg := hreach.inv
  have hmono := g.isThreatened_mono g' true hg pos hp piece hadd
  have hlegal := g.hasLegalMoves_mono g' hg pos hp piece hadd
  refine ⟨hmono, hlegal, ?_⟩
  intro hmate
  obtain ⟨-, -, -, -, hking⟩ := g.addWhitePiece_placed g' true hg pos hp piece hadd
  rw [Game.isCheckmate_eq_some_true] at hmate ⊢
  exact ⟨by rw [hking]; exact hmono _ hmate.1, hlegal hmate.2⟩

/-- Witness for C20: a knight added on `(7,7)` of the reference position, which
is checkmate before and after. -/
theorem addWhitePiece_keeps_checkmate_witness :
    referenceGame.ReachableKingSet ∧ Position.isValid ⟨7, 7⟩ = true ∧
    referenceGame.addWhitePiece ⟨7, 7⟩ (some Piece.Knight) =
      some (true, gameAfter (referenceCalls ++ [.addWhitePiece ⟨7, 7⟩ .Knight])) ∧
    referenceGame.isCheckmate = some true ∧
    (gameAfter (referenceCalls ++ [.addWhitePiece ⟨7, 7⟩ .Knight])).isCheckmate = some true :=
  ⟨⟨referenceCalls, by decide, by decide⟩, by decide, by decide, by decide,
   (addWhitePiece_keeps_checkmate referenceGame ⟨referenceCalls, by decide, by decide⟩
     ⟨7, 7⟩ (by decide) Piece.Knight
     (gameAfter (referenceCalls ++ [.addWhitePiece ⟨7, 7⟩ .Knight])) (by decide)).2.2
     (by decide)⟩

/-! ## Order of the placements -/

/-- What a call that returns true leaves. -/
theorem Game.call_placed (g g1 : Game) (k : Bool) (hg : g.Inv k) (c : Call)
    (hc : c.pos.isValid = true) (h : g.call c = some (true, g1)) :
    g1.Inv (k || c.kingPlaced true) ∧
    g.board.getPiece c.pos = some none ∧
    (∀ q, g1.board.getPiece q =
      if q = c.pos then some (some c.piece) else g.board.getPiece q) ∧
    g1.whitePieces = g.whitePieces ++ ((if c.isAddWhitePiece then [c] else []).map Call.pos) ∧
    g1.blackKingPos = (if c.isAddWhitePiece then g.blackKingPos else c.pos) := by
  have hinv : g1.Inv (k || c.kingPlaced true) := by
    obtain ⟨placed, g2, hcall, hg2⟩ := g.call_Inv k hg c hc
    rw [h] at hcall
    simp only [Option.some.injEq, Prod.mk.injEq] at hcall
    obtain ⟨rfl, rfl⟩ := hcall
    exact hg2
  refine ⟨hinv, ?_⟩
  cases c with
  | addWhitePiece pos piece =>
    obtain ⟨-, hfree, hget, hw, hking⟩ := g.addWhitePiece_placed g1 k hg pos hc piece h
    exact ⟨hfree, hget, by simpa [Call.isAddWhitePiece, Call.pos] using hw,
      by simpa [Call.isAddWhitePiece] using hking⟩
  | setBlackKing pos =>
    simp only [Game.call] at h
    rcases g.place_spec k hg pos hc Piece.King with ⟨-, h1, -⟩ | ⟨hfree, ⟨b1, hget1, h1⟩, -⟩
    · rw [h] at h1
      simp at h1
    · rw [h] at h1
      simp only [Option.some.injEq, Prod.mk.injEq, true_and] at h1
      subst h1
      obtain ⟨cell, hcell⟩ := g.board.getPiece_of_valid hg.wf pos hc
      have : cell = none := by
        cases cell with
        | none => rfl
        | some q => simp [Board.isOccupied_eq, hcell] at hfree
      subst this
      exact ⟨hcell, hget1, by simp [Call.isAddWhitePiece], by simp [Call.isAddWhitePiece, Call.pos]⟩

theorem Game.flags_cons_all_true (g : Game) (c : Call) (cs : List Call)
    (h : g.flags (c :: cs) = some ((c :: cs).map fun _ => true)) :
    ∃ g1, g.call c = some (true, g1) ∧ g1.flags cs = some (cs.map fun _ => true) := by
  cases hcall : g.call c with
  | none => simp [Game.flags, hcall] at h
  | some r =>
    obtain ⟨placed, g1⟩ := r
    cases hrest : g1.flags cs with
    | none => simp [Game.flags, hcall, hrest] at h
    | some rest =>
      simp only [Game.flags, hcall, hrest, Option.bind_eq_bind, Option.some_bind,
        Option.pure_def, List.map_cons, Option.some.injEq, List.cons.injEq] at h
      obtain ⟨rfl, rfl⟩ := h
      exact ⟨g1, rfl, hrest⟩

/-- The game after calls that all return true, in terms of the calls. -/
theorem Game.run_all_placed (calls : List Call) :
    ∀ (g g' : Game) (k k' : Bool), g.Inv k → (∀ c ∈ calls, c.pos.isValid = true) →
      g.flags calls = some (calls.map fun _ => true) →
      g.run k calls = some (g', k') →
      (∀ q p, g'.board.getPiece q = some (some p) ↔
        g.board.getPiece q = some (some p) ∨ ∃ c ∈ calls, c.pos = q ∧ c.piece = p) ∧
      g'.whitePieces = g.whitePieces ++ (calls.filter Call.isAddWhitePiece).map Call.pos ∧
      (g'.blackKingPos = g.blackKingPos ∨ Call.setBlackKing g'.blackKingPos ∈ calls) ∧
      (k' = true → k = false → Call.setBlackKing g'.blackKingPos ∈ calls) := by
  induction calls with
  | nil =>
    intro g g' k k' _ _ _ hrun
    simp only [Game.run, Option.some.injEq, Prod.mk.injEq] at hrun
    obtain ⟨rfl, rfl⟩ := hrun
    refine ⟨by simp, by simp, Or.inl rfl, ?_⟩
    intro h1 h2
    rw [h1] at h2
    cases h2
  | cons c cs ih =>
    intro g g' k k' hg hvalid hflags hrun
    obtain ⟨g1, hcall, hrest⟩ := g.flags_cons_all_true c cs hflags
    have hc := hvalid c (List.mem_cons_self _ _)
    obtain ⟨hg1, hfree, hget, hw, hking⟩ := g.call_placed g1 k hg c hc hcall
    simp only [Game.run, hcall, Option.bind_eq_bind, Option.some_bind] at hrun
    obtain ⟨ihb, ihw, ihk, ihs⟩ :=
      ih g1 g' _ k' hg1 (fun d hd => hvalid d (List.mem_cons_of_mem _ hd)) hrest hrun
    refine ⟨?_, ?_, ?_, ?_⟩
    · intro q p
      rw [ihb, hget]
      by_cases hq : q = c.pos
      · subst hq
        simp only [if_true, Option.some.injEq, hfree, List.mem_cons, exists_eq_or_imp,
          true_and, false_or]
        constructor
        · intro h
          exact Or.inr h
        · rintro (h | h)
          · cases h
          · exact h
      · have hq' : ¬ c.pos = q := fun e => hq e.symm
        simp only [if_neg hq, List.mem_cons, exists_eq_or_imp, hq', false_and, false_or]
    · rw [ihw, hw]
      cases c <;> simp [Call.isAddWhitePiece, List.filter_cons]
    · rcases ihk with h | h
      · rw [h, hking]
        cases c with
        | addWhitePiece pos piece => left; simp [Call.isAddWhitePiece]
        | setBlackKing pos => right; simp [Call.isAddWhitePiece, Call.pos]
      · exact Or.inr (List.mem_cons_of_mem _ h)
    · intro hk' hk
      subst hk
      cases c with
      | addWhitePiece pos piece =>
        exact List.mem_cons_of_mem _ (ihs hk' (by simp [Call.kingPlaced]))
      | setBlackKing pos =>
        rcases ihk with h | h
        · rw [h, hking]
          simp [Call.isAddWhitePiece, Call.pos]
        · exact List.mem_cons_of_mem _ h

theorem Game.isCheckmate_of (g : Game) (c e : Bool)
    (hc : g.isThreatened g.blackKingPos = some c)
    (he : g.hasLegalMoves g.blackKingPos = some e) :
    g.isCheckmate = some (c && !e) := by
  cases c <;> simp [Game.isCheckmate, Game.isCheck_eq_isThreatened, hc, he]

/-- Two games with the same cells, the same king location and white-piece lists
that are permutations of each other give the same answers. -/
theorem Game.predicates_agree (g1 g2 : Game) (hg1 : g1.Inv true) (hg2 : g2.Inv true)
    (hb : ∀ q, g1.board.getPiece q = g2.board.getPiece q)
    (hw : g1.whitePieces.Perm g2.whitePieces)
    (hk : g1.blackKingPos = g2.blackKingPos) :
    (∀ t, ∃ r, g1.isThreatened t = some r ∧ g2.isThreatened t = some r) ∧
    (∃ r, g1.hasLegalMoves g1.blackKingPos = some r ∧
      g2.hasLegalMoves g2.blackKingPos = some r) ∧
    (∃ r, g1.isCheckmate = some r ∧ g2.isCheckmate = some r) := by
  have hthr : ∀ t, ∃ r, g1.isThreatened t = some r ∧ g2.isThreatened t = some r := by
    intro t
    obtain ⟨r1, hr1, hiff1⟩ := g1.isThreatened_spec true hg1 t
    obtain ⟨r2, hr2, hiff2⟩ := g2.isThreatened_spec true hg2 t
    have : r1 = r2 := by
      rw [Bool.eq_iff_iff, hiff1, hiff2]
      simp only [hb, hw.mem_iff]
    subst this
    exact ⟨r1, hr1, hr2⟩
  have hthr' : ∀ t, g1.isThreatened t = g2.isThreatened t := by
    intro t
    obtain ⟨r, h1, h2⟩ := hthr t
    rw [h1, h2]
  have hleg : ∃ r, g1.hasLegalMoves g1.blackKingPos = some r ∧
      g2.hasLegalMoves g2.blackKingPos = some r := by
    obtain ⟨r1, hr1, hiff1⟩ :=
      g1.hasLegalMoves_spec true hg1 g1.blackKingPos Piece.King (hg1.king rfl)
    obtain ⟨r2, hr2, hiff2⟩ :=
      g2.hasLegalMoves_spec true hg2 g2.blackKingPos Piece.King (hg2.king rfl)
    have : r1 = r2 := by
      rw [Bool.eq_iff_iff, hiff1, hiff2]
      simp only [Board.isOccupied_eq, hb, hthr', hk]
    subst this
    exact ⟨r1, hr1, hr2⟩
  refine ⟨hthr, hleg, ?_⟩
  obtain ⟨c, hc1, hc2⟩ := hthr g1.blackKingPos
  obtain ⟨e, he1, he2⟩ := hleg
  rw [hk] at hc2
  exact ⟨c && !e, g1.isCheckmate_of c e hc1 he1, g2.isCheckmate_of c e hc2 he2⟩

/-- C18: two games built from a fresh `Game` by the same calls in different
orders, every call returning true and `setBlackKing kp` being the only
`setBlackKing` among them, give the same value of `isThreatened t` for every
position `t`, record the same king location, and give the same value of
`hasLegalMoves` on the king location and of `isCheckmate`. -/
theorem placement_order_does_not_matter (calls1 calls2 : List Call) (g1 g2 : Game)
    (kp : Position) (hperm : calls1.Perm calls2)
    (h1 : Game.ReachedBy calls1 g1 true) (h2 : Game.ReachedBy calls2 g2 true)
    (hall1 : Game.new.flags calls1 = some (calls1.map fun _ => true))
    (hall2 : Game.new.flags calls2 = some (calls2.map fun _ => true))
    (hking : ∀ c ∈ calls1, c.isAddWhitePiece = false → c = Call.setBlackKing kp) :
    (∀ t, ∃ r, g1.isThreatened t = some r ∧ g2.isThreatened t = some r) ∧
    (g1.blackKingPos = kp ∧ g2.blackKingPos = kp) ∧
    (∃ r, g1.hasLegalMoves g1.blackKingPos = some r ∧
      g2.hasLegalMoves g2.blackKingPos = some r) ∧
    (∃ r, g1.isCheckmate = some r ∧ g2.isCheckmate = some r) := by
  have hg1 := h1.inv
  have hg2 := h2.inv
  obtain ⟨hb1, hw1, -, hs1⟩ :=
    Game.run_all_placed calls1 Game.new g1 false true Game.new_Inv h1.1 hall1 h1.2
  obtain ⟨hb2, hw2, -, hs2⟩ :=
    Game.run_all_placed calls2 Game.new g2 false true Game.new_Inv h2.1 hall2 h2.2
  have hempty : ∀ q p, ¬ Game.new.board.getPiece q = some (some p) := by
    intro q p h
    have := Board.new_getPiece q _ h
    cases this
  have hcell : ∀ q p, g1.board.getPiece q = some (some p) ↔
      g2.board.getPiece q = some (some p) := by
    intro q p
    rw [hb1, hb2]
    simp only [hempty, false_or, hperm.mem_iff]
  have hb : ∀ q, g1.board.getPiece q = g2.board.getPiece q := by
    intro q
    by_cases hq : q.isValid = true
    · obtain ⟨c1, hc1⟩ := g1.board.getPiece_of_valid hg1.wf q hq
      obtain ⟨c2, hc2⟩ := g2.board.getPiece_of_valid hg2.wf q hq
      cases c1 with
      | some p => rw [hc1, (hcell q p).1 hc1]
      | none =>
        cases c2 with
        | none => rw [hc1, hc2]
        | some p =>
          have := (hcell q p).2 hc2
          rw [hc1] at this
          cases this
    · cases e1 : g1.board.getPiece q with
      | some c => exact absurd (g1.board.getPiece_eq_some hg1.wf q c e1) hq
      | none =>
        cases e2 : g2.board.getPiece q with
        | some c => exact absurd (g2.board.getPiece_eq_some hg2.wf q c e2) hq
        | none => rfl
  have hw : g1.whitePieces.Perm g2.whitePieces := by
    rw [hw1, hw2]
    exact ((hperm.filter _).map _).append_left _
  have hk1 : g1.blackKingPos = kp := by
    have hmem := hs1 rfl rfl
    have := hking _ hmem rfl
    simpa using this
  have hk2 : g2.blackKingPos = kp := by
    have hmem := hperm.mem_iff.2 (hs2 rfl rfl)
    have := hking _ hmem rfl
    simpa using this
  obtain ⟨a, b, c⟩ := Game.predicates_agree g1 g2 hg1 hg2 hb hw (hk1.trans hk2.symm)
  exact ⟨a, ⟨hk1, hk2⟩, b, c⟩

/-- Witness for C18: the calls of `main` and the same calls in another order. -/
theorem placement_order_does_not_matter_witness :
    referenceCalls.Perm reorderedReferenceCalls ∧
    Game.ReachedBy referenceCalls referenceGame true ∧
    Game.ReachedBy reorderedReferenceCalls (gameAfter reorderedReferenceCalls) true ∧
    referenceGame.whitePieces ≠ (gameAfter reorderedReferenceCalls).whitePieces ∧
    ((∀ t, ∃ r, referenceGame.isThreatened t = some r ∧
        (gameAfter reorderedReferenceCalls).isThreatened t = some r) ∧
      (referenceGame.blackKingPos = ⟨1, 1⟩ ∧
        (gameAfter reorderedReferenceCalls).blackKingPos = ⟨1, 1⟩) ∧
      (∃ r, referenceGame.hasLegalMoves referenceGame.blackKingPos = some r ∧
        (gameAfter reorderedReferenceCalls).hasLegalMoves
          (gameAfter reorderedReferenceCalls).blackKingPos = some r) ∧
      (∃ r, referenceGame.isCheckmate = some r ∧
        (gameAfter reorderedReferenceCalls).isCheckmate = some r)) :=
  ⟨by decide, ⟨by decide, by decide⟩, ⟨by decide, by decide⟩, by decide,
   placement_order_does_not_matter referenceCalls reorderedReferenceCalls referenceGame
     (gameAfter reorderedReferenceCalls) ⟨1, 1⟩ (by decide)
     ⟨by decide, by decide⟩ ⟨by decide, by decide⟩ (by decide) (by decide) (by decide)⟩

end Chess
